import Mathlib

/-!
# Verified model of the `openapi-gen` schema merger

This file is a shallow embedding, in Lean 4, of the multi-document
reference resolver and normalizer of the `openapi-gen` repository
(`mergeSchemaFiles` and its helpers: `registerComponents`,
`resolveAllReferences`, `processNode`, `resolveReference`,
`extractComponentName`, `normalizeSchema`, `updateReferences`).

Modelling conventions:

* JavaScript strings are modelled as `List Char` (`Str`); the helper `st`
  turns a Lean string literal into one.
* YAML/JSON trees are modelled by the inductive `Json` (null, booleans,
  numbers, strings, arrays, and insertion-ordered string-keyed mappings).
  JavaScript objects and `Map`s preserve insertion order, so mappings are
  association lists; `set` overwrites in place, otherwise appends.
* Node's `path` functions (`basename`, `dirname`, `resolve`, `relative`)
  are modelled for POSIX paths, following the algorithms of Node's
  `path.posix` implementation.  `path.resolve` consults the process
  working directory when a path is relative, so the model threads an
  explicit `cwd` argument.
* The file system and YAML parsing are outside the embedded core: the
  merger's input is the ordered list of `(path, parsedTree)` pairs
  (an unreadable or unparseable file is simply absent from the list,
  matching the source's behaviour of skipping it).
* `console.warn` calls inside the resolver are modelled as an explicit
  warning list in the threaded state, so "a cycle was reported" and
  "an unresolved reference was reported" are observable.
* The mutually recursive resolver is made total with a fuel parameter
  (the JavaScript recursion has no such parameter); theorems about
  termination state that sufficient fuel exists and that results are
  stable under adding fuel.
-/

/-- JavaScript strings, modelled as lists of characters. -/
abbrev Str := List Char

/-- Turn a Lean string literal into a modelled JavaScript string. -/
def st (s : String) : Str := s.data

mutual

/-- A YAML/JSON tree: null, boolean, number, string, ordered array, or
insertion-ordered mapping from string keys to values.  The sequence and
mapping payloads are the mutually defined `JsonList` and `JsonFields`
(isomorphic to `List Json` and `List (Str × Json)`). -/
inductive Json where
  | null : Json
  | bool (b : Bool) : Json
  | num (n : Int) : Json
  | str (s : Str) : Json
  | arr (items : JsonList) : Json
  | obj (fields : JsonFields) : Json
deriving DecidableEq, Repr

/-- The elements of a JSON array, in order. -/
inductive JsonList where
  | nil : JsonList
  | cons (hd : Json) (tl : JsonList) : JsonList
deriving DecidableEq, Repr

/-- The fields of a JSON mapping, in insertion order; keys are unique by
construction because every write goes through `fSet`. -/
inductive JsonFields where
  | nil : JsonFields
  | cons (k : Str) (v : Json) (tl : JsonFields) : JsonFields
deriving DecidableEq, Repr

end

/-- JavaScript truthiness of a value: `null`, `false`, `0` and the empty
string are falsy; every object and array (even empty) is truthy. -/
def Json.truthy : Json → Bool
  | .null => false
  | .bool b => b
  | .num n => n != 0
  | .str s => s != []
  | .arr _ => true
  | .obj _ => true

/-- A value for which JavaScript `typeof` answers `"object"` and that is
not `null`: mappings and arrays. -/
def Json.isObjectLike : Json → Bool
  | .arr _ => true
  | .obj _ => true
  | _ => false

/-- Object property read (first matching key). -/
def fGet (l : JsonFields) (k : Str) : Option Json :=
  match l with
  | .nil => none
  | .cons k' v rest => if k' = k then some v else fGet rest k

/-- Object property write: overwrite in place if the key is present
(keeping its position, as JavaScript objects do), otherwise append. -/
def fSet (l : JsonFields) (k : Str) (v : Json) : JsonFields :=
  match l with
  | .nil => .cons k v .nil
  | .cons k' v' rest =>
      if k' = k then .cons k' v rest else .cons k' v' (fSet rest k v)

/-- JavaScript `delete obj[k]`. -/
def fDelete (l : JsonFields) (k : Str) : JsonFields :=
  match l with
  | .nil => .nil
  | .cons k' v' rest =>
      if k' = k then rest else .cons k' v' (fDelete rest k)

/-- JavaScript `k in obj`: key presence, regardless of the value. -/
def fHas (l : JsonFields) (k : Str) : Bool :=
  (fGet l k).isSome

/-- The fields as a Lean list (`Object.entries` snapshot). -/
def fToList (l : JsonFields) : List (Str × Json) :=
  match l with
  | .nil => []
  | .cons k v rest => (k, v) :: fToList rest

/-- Build `JsonFields` from a Lean list (for writing literals). -/
def fOfList (l : List (Str × Json)) : JsonFields :=
  match l with
  | [] => .nil
  | (k, v) :: rest => .cons k v (fOfList rest)

/-- Build `JsonList` from a Lean list (for writing literals). -/
def jlOfList (l : List Json) : JsonList :=
  match l with
  | [] => .nil
  | j :: rest => .cons j (jlOfList rest)

/-- Object literal helper. -/
def jobj (l : List (Str × Json)) : Json := .obj (fOfList l)

/-- Array literal helper. -/
def jarr (l : List Json) : Json := .arr (jlOfList l)

/-- First value for a key in an association list (JavaScript object
property read / `Map.get`); keys are unique by construction because every
write goes through `alSet`. -/
def alGet {α : Type} (l : List (Str × α)) (k : Str) : Option α :=
  match l with
  | [] => none
  | (k', v) :: rest => if k' = k then some v else alGet rest k

/-- Write a key in an association list: overwrite in place if the key is
present (keeping its position, as JavaScript objects and `Map`s do),
otherwise append at the end. -/
def alSet {α : Type} (l : List (Str × α)) (k : Str) (v : α) : List (Str × α) :=
  match l with
  | [] => [(k, v)]
  | (k', v') :: rest =>
      if k' = k then (k', v) :: rest else (k', v') :: alSet rest k v

/-- Remove a key from an association list (JavaScript `delete obj[k]` /
`Map.delete`). -/
def alDelete {α : Type} (l : List (Str × α)) (k : Str) : List (Str × α) :=
  match l with
  | [] => []
  | (k', v') :: rest =>
      if k' = k then rest else (k', v') :: alDelete rest k

/-- Membership test for a key (JavaScript `k in obj` / `Map.has`). -/
def alHas {α : Type} (l : List (Str × α)) (k : Str) : Bool :=
  (alGet l k).isSome

/-- `String.prototype.startsWith`. -/
def jsStartsWith (s p : Str) : Bool := p.isPrefixOf s

/-- `String.prototype.endsWith`. -/
def jsEndsWith (s p : Str) : Bool := p.reverse.isPrefixOf s.reverse

/-- `String.prototype.includes`: substring occurrence test (scan start
positions left to right). -/
def jsIncludes (s p : Str) : Bool :=
  if p.isPrefixOf s then true
  else
    match s with
    | [] => false
    | _ :: rest => jsIncludes rest p

/-- `String.prototype.lastIndexOf` for a single-character needle:
the greatest index holding `c`, or `-1` when absent. -/
def jsLastIndexOfChar (s : Str) (c : Char) : Int :=
  match s with
  | [] => -1
  | a :: rest =>
      let r := jsLastIndexOfChar rest c
      if r >= 0 then r + 1 else if a = c then 0 else -1

/-- `String.prototype.substring` with JavaScript clamping semantics:
negative indices become `0`, indices beyond the length are clamped, and
the two indices are swapped when given in decreasing order. -/
def jsSubstring (s : Str) (a b : Int) : Str :=
  let len : Int := s.length
  let a' := min (max a 0) len
  let b' := min (max b 0) len
  let lo := min a' b'
  let hi := max a' b'
  (s.take hi.toNat).drop lo.toNat

/-- `String.prototype.substring` with one argument: from the index to the
end of the string. -/
def jsSubstringFrom (s : Str) (a : Int) : Str :=
  jsSubstring s a s.length

/-- `String.prototype.split` on a single-character separator: the list of
chunks between occurrences of the separator (`"".split(c)` is `[""]`,
`".x".split "."` is `["", "x"]`). -/
def jsSplitChar (s : Str) (c : Char) : List Str :=
  match s with
  | [] => [[]]
  | a :: rest =>
      let r := jsSplitChar rest c
      if a = c then [] :: r
      else
        match r with
        | [] => [[a]]
        | h :: t => (a :: h) :: t

/-- One character of the global regex `/[^A-Za-z0-9\-\._]/`: `true` when
the character is allowed in a component name (letter, digit, hyphen,
period, underscore). -/
def validNameChar (c : Char) : Bool :=
  (('A' ≤ c ∧ c ≤ 'Z') ∨ ('a' ≤ c ∧ c ≤ 'z') ∨ ('0' ≤ c ∧ c ≤ '9')
    ∨ c = '-' ∨ c = '.' ∨ c = '_' : Prop)

/-- `invalidNameRegex.test(name)`: the name holds at least one character
outside letters, digits, hyphen, period, underscore.  (The source reuses
one global regex, but every `test` in `normalizeSchema` runs with
`lastIndex = 0`: a failed `test` resets it, and a successful `test` is
always followed by a global `replace`, which also resets it.) -/
def hasInvalidChar (s : Str) : Bool := s.any (fun c => ¬ validNameChar c)

/-- `name.replace(invalidNameRegex, "_")`: every disallowed character is
replaced by an underscore. -/
def sanitizeName (s : Str) : Str :=
  s.map (fun c => if validNameChar c then c else '_')

/-! ## Node `path.posix` functions

The merger calls Node's `path.basename`, `path.dirname`, `path.resolve`
and `path.relative`.  They are modelled here for POSIX paths, following
the algorithms of Node's `path.posix` implementation.  `path.resolve`
falls back on the process working directory for relative inputs, so the
resolving functions take an explicit `cwd`, which the model assumes to be
an absolute path. -/

/-- A POSIX-absolute path: starts with `/`. -/
def isAbsPath (p : Str) : Bool := jsStartsWith p (st "/")

/-- Normalize the segment list of an absolute path: drop empty and `.`
segments; `..` pops the previous segment (and is dropped at the root,
as Node does for absolute paths). -/
def normSegs (segs : List Str) : List Str :=
  segs.foldl
    (fun acc seg =>
      if seg = [] ∨ seg = st "." then acc
      else if seg = st ".." then acc.dropLast
      else acc ++ [seg])
    []

/-- Join segments with `/`. -/
def joinSegs (segs : List Str) : Str := (segs.intersperse (st "/")).flatten

/-- Normalize an absolute path (collapse `//`, `.` and `..`, drop any
trailing slash); `path.resolve` output shape. -/
def normalizeAbs (p : Str) : Str :=
  '/' :: joinSegs (normSegs (jsSplitChar p '/'))

/-- Node `path.resolve(p)` (one argument): resolve against the working
directory when `p` is relative, then normalize. -/
def pathResolve1 (cwd p : Str) : Str :=
  if isAbsPath p then normalizeAbs p
  else normalizeAbs (cwd ++ '/' :: p)

/-- Node `path.resolve(base, p)` (two arguments): the rightmost absolute
path wins; a relative `base` is itself resolved against the working
directory. -/
def pathResolve2 (cwd base p : Str) : Str :=
  if isAbsPath p then normalizeAbs p
  else if isAbsPath base then normalizeAbs (base ++ '/' :: p)
  else normalizeAbs (cwd ++ '/' :: base ++ '/' :: p)

/-- Node `path.posix.dirname`: everything before the last separator of the
final component, with Node's exact edge behaviour (the scan never looks at
index `0`; a path whose only separator is the leading one gives `/`; no
separator gives `.`). -/
def pathDirname (p : Str) : Str :=
  if p = [] then st "."
  else
    let hasRoot := jsStartsWith p (st "/")
    let r := p.reverse.dropWhile (fun c => c = '/')
    let r2 := r.dropWhile (fun c => c ≠ '/')
    match r2 with
    | [] => if hasRoot then st "/" else st "."
    | _ :: _ =>
        let i := r2.length - 1
        if i = 0 then (if hasRoot then st "/" else st ".")
        else if hasRoot ∧ i = 1 then st "//"
        else p.take i

/-- Node `path.posix.basename` (no extension argument): the final
component, ignoring trailing slashes. -/
def pathBasename (p : Str) : Str :=
  ((p.reverse.dropWhile (fun c => c = '/')).takeWhile (fun c => c ≠ '/')).reverse

/-- The non-empty segments of a normalized absolute path. -/
def segsOf (p : Str) : List Str :=
  (jsSplitChar p '/').filter (fun s => s ≠ [])

/-- Length of the longest common segment run. -/
def commonLen : List Str → List Str → Nat
  | a :: as, b :: bs => if a = b then commonLen as bs + 1 else 0
  | _, _ => 0

/-- Node `path.posix.relative(from, to)`: resolve both against the working
directory, drop the common leading segments, then `..` for each remaining
`from` segment followed by the remaining `to` segments. -/
def pathRelative (cwd fromP toP : Str) : Str :=
  let f := pathResolve1 cwd fromP
  let t := pathResolve1 cwd toP
  if f = t then []
  else
    let fs := segsOf f
    let ts := segsOf t
    let k := commonLen fs ts
    joinSegs (List.replicate (fs.length - k) (st "..") ++ ts.drop k)

/-! ## Data model of the merger (`schemaMerger` evolved version)

`FileReference`, the component registry, the resolution state (registry,
`refMap`, emitted warnings) and the branch-visited set. -/

/-- `interface FileReference` from the source. -/
structure FileRef where
  absolutePath : Str
  relativePath : Str
  content : Json
deriving DecidableEq, Repr

/-- The document table: reference-string keys to loaded documents. -/
abbrev FileMap := List (Str × FileRef)

/-- `interface ComponentRegistry`: nine named collections. -/
structure ComponentRegistry where
  schemas : List (Str × Json)
  responses : List (Str × Json)
  parameters : List (Str × Json)
  examples : List (Str × Json)
  requestBodies : List (Str × Json)
  headers : List (Str × Json)
  securitySchemes : List (Str × Json)
  links : List (Str × Json)
  callbacks : List (Str × Json)
deriving DecidableEq, Repr

/-- The registry constructed at the start of `mergeSchemaFiles`. -/
def emptyRegistry : ComponentRegistry :=
  ⟨[], [], [], [], [], [], [], [], []⟩

/-- `Object.entries(registry)`, in the property insertion order of the
object literal in `mergeSchemaFiles`. -/
def registryEntries (r : ComponentRegistry) : List (Str × List (Str × Json)) :=
  [ (st "schemas", r.schemas)
  , (st "responses", r.responses)
  , (st "parameters", r.parameters)
  , (st "examples", r.examples)
  , (st "requestBodies", r.requestBodies)
  , (st "headers", r.headers)
  , (st "securitySchemes", r.securitySchemes)
  , (st "links", r.links)
  , (st "callbacks", r.callbacks) ]

/-- The two `console.warn` diagnostics of the resolver: a circular
reference, and a reference that could not be resolved. -/
inductive Warning where
  | circular (ref : Str) : Warning
  | unresolved (ref : Str) : Warning
deriving DecidableEq, Repr

/-- The state mutated in place by the source's resolver: the component
registry, the `refMap` memo (external reference string to internal
pointer), and the warnings emitted so far. -/
structure RState where
  registry : ComponentRegistry
  refMap : List (Str × Str)
  warnings : List Warning
deriving DecidableEq, Repr

/-- Record a `console.warn`. -/
def addWarn (s : RState) (w : Warning) : RState :=
  { s with warnings := s.warnings ++ [w] }

/-- The literal searched for by `extractComponentName`. -/
def compSchemasLit : Str := st "/components/schemas/"

/-- The regex `/\/components\/schemas\/([^\/\.]+)/`, as the regex engine
executes it: try each start position from the left; at a position the
literal `/components/schemas/` must match, followed by a non-empty run of
characters other than `/` and `.`; the capture is that (maximal) run.
When the literal matches but the run is empty the engine moves to the
next start position. -/
def matchCompSchemas (s : Str) : Option Str :=
  match s with
  | [] => none
  | _ :: rest =>
      if compSchemasLit.isPrefixOf s then
        let run := (s.drop compSchemasLit.length).takeWhile
          (fun c => c != '/' && c != '.')
        if run ≠ [] then some run else matchCompSchemas rest
      else matchCompSchemas rest

/-- `extractComponentName` (source lines 444-461): if the pointer contains
`/components/schemas/` and the regex captures a name, that name; otherwise
the part of `path.basename(ref)` before its first `.` (via `split(".")`),
or `null` when that part is empty or the basename is empty. -/
def extractComponentName (ref : Str) : Option Str :=
  let fromRegex :=
    if jsIncludes ref compSchemasLit then matchCompSchemas ref else none
  match fromRegex with
  | some n => some n
  | none =>
      let fileName := pathBasename ref
      if fileName ≠ [] then
        match jsSplitChar fileName '.' with
        | [] => none
        | p0 :: _ => if p0 ≠ [] then some p0 else none
      else none

/-- `if (componentName)`: JavaScript truthiness of the
`string | null` value returned by `extractComponentName`. -/
def optTruthy (o : Option Str) : Bool :=
  match o with
  | some n => n ≠ []
  | none => false

/-- `registerComponents` (source lines 165-211): skip unless the parsed
content has `typeof === "object"` and is not null; derive the name from
the file's base name up to its last `.`; require `/components/` in the
path; pick the collection from the first matching `/components/<kind>/`
segment; register (overwriting any earlier entry of the same name). -/
def registerComponents (filePath : Str) (schema : Json)
    (reg : ComponentRegistry) : ComponentRegistry :=
  if ¬ schema.isObjectLike then reg
  else
    let fileName := pathBasename filePath
    let fileNameWithoutExt :=
      jsSubstring fileName 0 (jsLastIndexOfChar fileName '.')
    if ¬ jsIncludes filePath (st "/components/") then reg
    else if jsIncludes filePath (st "/components/schemas/") then
      { reg with schemas := alSet reg.schemas fileNameWithoutExt schema }
    else if jsIncludes filePath (st "/components/responses/") then
      { reg with responses := alSet reg.responses fileNameWithoutExt schema }
    else if jsIncludes filePath (st "/components/parameters/") then
      { reg with parameters := alSet reg.parameters fileNameWithoutExt schema }
    else if jsIncludes filePath (st "/components/examples/") then
      { reg with examples := alSet reg.examples fileNameWithoutExt schema }
    else if jsIncludes filePath (st "/components/requestBodies/") then
      { reg with requestBodies := alSet reg.requestBodies fileNameWithoutExt schema }
    else if jsIncludes filePath (st "/components/headers/") then
      { reg with headers := alSet reg.headers fileNameWithoutExt schema }
    else if jsIncludes filePath (st "/components/securitySchemes/") then
      { reg with securitySchemes := alSet reg.securitySchemes fileNameWithoutExt schema }
    else if jsIncludes filePath (st "/components/links/") then
      { reg with links := alSet reg.links fileNameWithoutExt schema }
    else if jsIncludes filePath (st "/components/callbacks/") then
      { reg with callbacks := alSet reg.callbacks fileNameWithoutExt schema }
    else reg

/-- The loading loop of `mergeSchemaFiles` (source lines 76-115): each
document is registered in the file map under its resolved absolute path,
its path exactly as given, its path relative to the main document's
directory with and without a leading `./`, and - when the relative path
carries a `.yaml`/`.yml` extension - the two relative forms with the
extension stripped.  Each file is also offered to `registerComponents`. -/
def loadStep (cwd mainFileDir : Str) (acc : FileMap × ComponentRegistry)
    (pr : Str × Json) : FileMap × ComponentRegistry :=
  let filePath := pr.1
  let schema := pr.2
  let absolutePath := pathResolve1 cwd filePath
  let relativePath := pathRelative cwd mainFileDir filePath
  let fr : FileRef := ⟨absolutePath, relativePath, schema⟩
  let fm := alSet acc.1 absolutePath fr
  let fm := alSet fm filePath fr
  let fm := alSet fm (st "./" ++ relativePath) fr
  let fm := alSet fm relativePath fr
  let fm :=
    if jsEndsWith relativePath (st ".yaml")
        || jsEndsWith relativePath (st ".yml") then
      let pathWithoutExt :=
        jsSubstring relativePath 0 (jsLastIndexOfChar relativePath '.')
      alSet (alSet fm pathWithoutExt fr) (st "./" ++ pathWithoutExt) fr
    else fm
  (fm, registerComponents filePath schema acc.2)

def loadFiles (cwd mainFileDir : Str) (files : List (Str × Json)) :
    FileMap × ComponentRegistry :=
  files.foldl (loadStep cwd mainFileDir) ([], emptyRegistry)

/-- The lookup fallback chain of `resolveReference` (source lines
340-371): the pointer as an exact key; the pointer resolved against
`basePath`; the pointer with a `./` added (when absent) or removed (when
present); and, for a `.yaml`/`.yml` pointer, the extension-stripped form
with and without `./`. -/
def lookupRef (cwd : Str) (fm : FileMap) (basePath ref : Str) :
    Option FileRef :=
  match alGet fm ref with
  | some f => some f
  | none =>
      match alGet fm (pathResolve2 cwd basePath ref) with
      | some f => some f
      | none =>
          let viaDotSlash :=
            if ¬ jsStartsWith ref (st "./") then alGet fm (st "./" ++ ref)
            else none
          match viaDotSlash with
          | some f => some f
          | none =>
              let withoutDotSlash :=
                if jsStartsWith ref (st "./") then
                  alGet fm (jsSubstringFrom ref 2)
                else none
              match withoutDotSlash with
              | some f => some f
              | none =>
                  if jsEndsWith ref (st ".yaml")
                      || jsEndsWith ref (st ".yml") then
                    let refWithoutExt :=
                      jsSubstring ref 0 (jsLastIndexOfChar ref '.')
                    match alGet fm refWithoutExt with
                    | some f => some f
                    | none => alGet fm (st "./" ++ refWithoutExt)
                  else none

/-- A pure reference node `{ $ref: r }`. -/
def refNode (r : Str) : Json := .obj (.cons (st "$ref") (.str r) .nil)

/-- The object returned by the cycle branch when no component name is
derivable. -/
def circularPlaceholder (ref : Str) : Json :=
  jobj [ (st "type", .str (st "object"))
       , (st "description",
          .str (st "Circular reference to " ++ ref
                ++ st " - replaced with placeholder")) ]

/-- The stub registered for an unresolved reference with a derivable
component name. -/
def unresolvedPlaceholder (ref : Str) : Json :=
  jobj [ (st "type", .str (st "object"))
       , (st "description", .str (st "Unresolved reference to " ++ ref))
       , (st "properties", jobj []) ]

mutual

/-- `processNode` (source lines 234-291).  Scalars pass through; arrays
resolve element-wise; a mapping whose `$ref` holds a truthy string is
handed to `resolveRef` (its other keys are not copied); any other mapping
is rebuilt with every value processed.  The branch-visited set is the
same mutable set for all children (only `resolveRef` clones it when it
recurses into a referenced document), so it is threaded through and
returned.  The `fuel` argument makes the JavaScript recursion total;
`none` means fuel ran out. -/
def procNode (fuel : Nat) (cwd : Str) (node : Json) (fm : FileMap)
    (basePath : Str) (s : RState) (visited : List Str) (depth : Nat) :
    Option (Json × RState × List Str) :=
  match fuel with
  | 0 => none
  | fuel + 1 =>
      match node with
      | .arr items =>
          match procItems fuel cwd items fm basePath s visited depth with
          | some (items2, s2, v2) => some (.arr items2, s2, v2)
          | none => none
      | .obj fields =>
          match fGet fields (st "$ref") with
          | some (.str r) =>
              if r ≠ [] then resolveRef fuel cwd r fm basePath s visited depth
              else
                match procFields fuel cwd fields fm basePath s visited depth with
                | some (fields2, s2, v2) => some (.obj fields2, s2, v2)
                | none => none
          | _ =>
              match procFields fuel cwd fields fm basePath s visited depth with
              | some (fields2, s2, v2) => some (.obj fields2, s2, v2)
              | none => none
      | other => some (other, s, visited)
termination_by structural fuel

/-- The `node.map(...)` arm of `processNode`: elements processed in
order at `depth + 1`, threading the mutated state and visited set. -/
def procItems (fuel : Nat) (cwd : Str) (items : JsonList) (fm : FileMap)
    (basePath : Str) (s : RState) (visited : List Str) (depth : Nat) :
    Option (JsonList × RState × List Str) :=
  match fuel with
  | 0 => none
  | fuel + 1 =>
      match items with
      | .nil => some (.nil, s, visited)
      | .cons hd tl =>
          match procNode fuel cwd hd fm basePath s visited (depth + 1) with
          | some (hd2, s2, v2) =>
              match procItems fuel cwd tl fm basePath s2 v2 depth with
              | some (tl2, s3, v3) => some (.cons hd2 tl2, s3, v3)
              | none => none
          | none => none
termination_by structural fuel

/-- The property loop of `processNode`: each value processed in order at
`depth + 1`, keys and their order preserved. -/
def procFields (fuel : Nat) (cwd : Str) (fields : JsonFields) (fm : FileMap)
    (basePath : Str) (s : RState) (visited : List Str) (depth : Nat) :
    Option (JsonFields × RState × List Str) :=
  match fuel with
  | 0 => none
  | fuel + 1 =>
      match fields with
      | .nil => some (.nil, s, visited)
      | .cons k v tl =>
          match procNode fuel cwd v fm basePath s visited (depth + 1) with
          | some (v2, s2, vis2) =>
              match procFields fuel cwd tl fm basePath s2 vis2 depth with
              | some (tl2, s3, vis3) => some (.cons k v2 tl2, s3, vis3)
              | none => none
          | none => none
termination_by structural fuel

/-- `resolveReference` (source lines 296-439), in the source's priority
order: internal pointers returned unchanged; a truthy `refMap` entry
returned as an internal pointer (a falsy entry falls through); a pointer
already in the branch-visited set warns and yields a synthesized internal
pointer (derivable name) or an inline placeholder; otherwise the pointer
is added to the visited set (mutating the caller's set) and looked up.
On a hit the document's content is processed against the target's own
directory with a clone of the visited set (inner additions are not
returned to this branch); with a derivable name the result is registered
in the schema collection, memoized in `refMap`, and returned as an
internal pointer, otherwise inlined.  On a miss, with a derivable name a
stub is registered (without touching `refMap`) and an internal pointer
returned; with no name the external reference node is returned
unchanged. -/
def resolveRef (fuel : Nat) (cwd : Str) (ref : Str) (fm : FileMap)
    (basePath : Str) (s : RState) (visited : List Str) (depth : Nat) :
    Option (Json × RState × List Str) :=
  match fuel with
  | 0 => none
  | fuel + 1 =>
      if jsStartsWith ref (st "#") then some (refNode ref, s, visited)
      else
        let memo :=
          match alGet s.refMap ref with
          | some ir => if ir ≠ [] then some ir else none
          | none => none
        match memo with
        | some ir => some (refNode ir, s, visited)
        | none =>
            if visited.contains ref then
              let s2 := addWarn s (.circular ref)
              match extractComponentName ref with
              | some n =>
                  if n ≠ [] then
                    some (refNode (st "#/components/schemas/" ++ n), s2, visited)
                  else some (circularPlaceholder ref, s2, visited)
              | none => some (circularPlaceholder ref, s2, visited)
            else
              let visited2 := visited ++ [ref]
              match lookupRef cwd fm basePath ref with
              | some fileRef =>
                  let refBasePath := pathDirname fileRef.absolutePath
                  match procNode fuel cwd fileRef.content fm refBasePath s
                      visited2 (depth + 1) with
                  | none => none
                  | some (resolvedContent, s3, _) =>
                      match extractComponentName ref with
                      | some n =>
                          if n ≠ [] then
                            let internalRef := st "#/components/schemas/" ++ n
                            let s4 : RState :=
                              { s3 with
                                registry :=
                                  { s3.registry with
                                    schemas :=
                                      alSet s3.registry.schemas n resolvedContent }
                                refMap := alSet s3.refMap ref internalRef }
                            some (refNode internalRef, s4, visited2)
                          else some (resolvedContent, s3, visited2)
                      | none => some (resolvedContent, s3, visited2)
              | none =>
                  let s2 := addWarn s (.unresolved ref)
                  match extractComponentName ref with
                  | some n =>
                      if n ≠ [] then
                        let s3 : RState :=
                          { s2 with
                            registry :=
                              { s2.registry with
                                schemas :=
                                  alSet s2.registry.schemas n
                                    (unresolvedPlaceholder ref) } }
                        some (refNode (st "#/components/schemas/" ++ n), s3,
                              visited2)
                      else some (refNode ref, s2, visited2)
                  | none => some (refNode ref, s2, visited2)
termination_by structural fuel

end

/-- `resolveAllReferences` (source lines 217-229): a deep clone (identity
on the modelled trees) followed by `processNode` with a fresh `refMap`,
an empty visited set and depth `0`. -/
def resolveAllReferences (fuel : Nat) (cwd : Str) (schema : Json)
    (fm : FileMap) (basePath : Str) (registry : ComponentRegistry) :
    Option (Json × RState) :=
  match procNode fuel cwd schema fm basePath ⟨registry, [], []⟩ [] 0 with
  | some (r, s, _) => some (r, s)
  | none => none

mutual

/-- `updateReferences` (source lines 605-624): rewrite, everywhere in the
tree, the value of any `$ref` key that is exactly `oldRef` to `newRef`;
recurse into arrays and into every object-valued property. -/
def updateRefs (j : Json) (oldRef newRef : Str) : Json :=
  match j with
  | .arr items => .arr (updateRefsList items oldRef newRef)
  | .obj fields => .obj (updateRefsFields fields oldRef newRef)
  | other => other

/-- Array arm of `updateReferences`. -/
def updateRefsList (l : JsonList) (oldRef newRef : Str) : JsonList :=
  match l with
  | .nil => .nil
  | .cons hd tl => .cons (updateRefs hd oldRef newRef)
      (updateRefsList tl oldRef newRef)

/-- Property loop of `updateReferences`: a `$ref` property holding
exactly the string `oldRef` is set to `newRef`; any other object-valued
property is recursed into; other values are untouched. -/
def updateRefsFields (l : JsonFields) (oldRef newRef : Str) : JsonFields :=
  match l with
  | .nil => .nil
  | .cons k v tl =>
      let v2 :=
        if k = st "$ref" ∧ v = .str oldRef then Json.str newRef
        else if v.isObjectLike then updateRefs v oldRef newRef
        else v
      .cons k v2 (updateRefsFields tl oldRef newRef)

end

/-! ## Property access helpers for `normalizeSchema`

JavaScript property reads on non-objects give `undefined`; `undefined`
and `null` behave identically in every check the normalizer performs, so
both are modelled as `Json.null`.  A property write on a non-object (or
on `undefined`) raises in the source's strict mode and is caught by the
top-level handler; that path is not exercised by any flow modelled here,
and the model leaves the value unchanged in that case. -/

/-- Property read, `undefined`/missing collapsed to `null`. -/
def getPropD (j : Json) (k : Str) : Json :=
  match j with
  | .obj fields =>
      match fGet fields k with
      | some v => v
      | none => .null
  | _ => .null

/-- `j[k] = v` on an object; unchanged otherwise (see the note above). -/
def setProp (j : Json) (k : Str) (v : Json) : Json :=
  match j with
  | .obj fields => .obj (fSet fields k v)
  | _ => j

/-- Modify an existing property in place. -/
def modifyProp (j : Json) (k : Str) (g : Json → Json) : Json :=
  match j with
  | .obj fields =>
      match fGet fields k with
      | some v => .obj (fSet fields k (g v))
      | none => j
  | _ => j

/-- `j[k1][k2] = v`. -/
def setProp2 (j : Json) (k1 k2 : Str) (v : Json) : Json :=
  modifyProp j k1 (fun c => setProp c k2 v)

/-- `j[k1][k2][k3] = v`. -/
def setProp3 (j : Json) (k1 k2 k3 : Str) (v : Json) : Json :=
  modifyProp j k1 (fun c => modifyProp c k2 (fun d => setProp d k3 v))

/-- `delete j[k]` on an object; unchanged otherwise. -/
def deleteProp (j : Json) (k : Str) : Json :=
  match j with
  | .obj fields => .obj (fDelete fields k)
  | _ => j

/-- `delete j[k1][k2][k3]`. -/
def deleteProp3 (j : Json) (k1 k2 k3 : Str) : Json :=
  modifyProp j k1 (fun c => modifyProp c k2 (fun d => deleteProp d k3))

/-- The index entries `Object.entries` produces for an array, starting
at index `i`: decimal-string keys paired with the elements. -/
def arrayEntries (items : JsonList) (i : Nat) : List (Str × Json) :=
  match items with
  | .nil => []
  | .cons hd tl => (Nat.toDigits 10 i, hd) :: arrayEntries tl (i + 1)

/-- `Object.entries` snapshot of a value: the key-value pairs of a
mapping, or the decimal-index entries of an array.  For every other
value the model answers `[]`: JavaScript answers `[]` on numbers,
booleans and `null`, and on a string it enumerates index entries whose
values are one-character strings - values that every consumer of this
snapshot skips (none is an object and none carries an operation key),
exactly as it skips an empty entry list. -/
def entriesOf (j : Json) : List (Str × Json) :=
  match j with
  | .obj fields => fToList fields
  | .arr items => arrayEntries items 0
  | _ => []

/-- The eight HTTP-verb keys recognized by `normalizeSchema`. -/
def opKeys : List Str :=
  [ st "get", st "post", st "put", st "delete", st "options"
  , st "head", st "patch", st "trace" ]

/-- `["get", ...].some(op => op in schemaObj)`. -/
def hasOperations (j : Json) : Bool :=
  match j with
  | .obj fields => opKeys.any (fun k => fHas fields k)
  | _ => false

/-- `normalizeSchema` steps 1-2 (source lines 472-479): ensure a truthy
`components` property and, inside it, a truthy `schemas` property. -/
def normEnsure (j : Json) : Json :=
  let j1 :=
    if ¬ (getPropD j (st "components")).truthy then
      setProp j (st "components") (jobj [])
    else j
  if ¬ (getPropD (getPropD j1 (st "components")) (st "schemas")).truthy then
    setProp2 j1 (st "components") (st "schemas") (jobj [])
  else j1

/-- One iteration of the `normalizeSchema` paths loop body (source
lines 483-506), acting on the accumulated tree/registry pair. -/
def normPathsStep (acc : Json × ComponentRegistry) (e : Str × Json) :
    Json × ComponentRegistry :=
  match e.2 with
  | .obj pf =>
      if fHas pf (st "$ref") then
        match fGet pf (st "$ref") with
        | some (.str refValue) =>
            if jsStartsWith refValue (st "#/components/schemas/") then
              let schemaName :=
                jsSubstringFrom refValue
                  (st "#/components/schemas/").length
              match alGet acc.2.schemas schemaName with
              | some schemaObj =>
                  (setProp2 acc.1 (st "paths") e.1 schemaObj,
                   { acc.2 with
                     schemas := alDelete acc.2.schemas schemaName })
              | none => acc
            else acc
        | _ => acc
      else acc
  | _ => acc

/-- `normalizeSchema` paths loop (source lines 482-507): for each path
entry that is an object with a `$ref` string key targeting
`#/components/schemas/<name>` where `<name>` is in the registry, replace
the path entry with the registered object and delete the registry
entry. -/
def normPathsLoop (j : Json) (reg : ComponentRegistry) :
    Json × ComponentRegistry :=
  if (getPropD j (st "paths")).truthy then
    (entriesOf (getPropD j (st "paths"))).foldl normPathsStep (j, reg)
  else (j, reg)

/-- `normalizeSchema` name-fixing loop (source lines 509-534): registry
schema entries with invalid names are collected under their sanitized
names (rewriting every pointer in the tree); valid names are written
directly under `components.schemas`; the renamed entries are then added
after the loop.  This is the body of one loop iteration (source lines
510-531), acting on the accumulated tree and renamed-entry list. -/
def normRenameStep (acc : Json × List (Str × Json)) (e : Str × Json) :
    Json × List (Str × Json) :=
  if hasInvalidChar e.1 then
    let validName := sanitizeName e.1
    (updateRefs acc.1 (st "#/components/schemas/" ++ e.1)
       (st "#/components/schemas/" ++ validName),
     alSet acc.2 validName e.2)
  else
    (setProp3 acc.1 (st "components") (st "schemas") e.1 e.2, acc.2)

/-- The write-back of one renamed entry after the name-fixing loop
(source line 533). -/
def normRenameAdd (res : Json) (e : Str × Json) : Json :=
  setProp3 res (st "components") (st "schemas") e.1 e.2

/-- `normalizeSchema` name-fixing loop (source lines 509-534): the loop
body over every registry schema entry, then the write-back of each
renamed entry. -/
def normRename (j : Json) (reg : ComponentRegistry) : Json :=
  let folded := reg.schemas.foldl normRenameStep (j, [])
  folded.2.foldl normRenameAdd folded.1

/-- `normalizeSchema` loop over the non-schema collections (source lines
537-552): each non-empty collection is emitted under
`components.<type>`, creating the container when falsy, with every name
sanitized (pointers are not rewritten here). -/
def normOtherTypes (j : Json) (reg : ComponentRegistry) : Json :=
  (registryEntries reg).foldl
    (fun res e =>
      if e.1 = st "schemas" then res
      else if e.2.length > 0 then
        let res2 :=
          if ¬ (getPropD (getPropD res (st "components")) e.1).truthy then
            setProp2 res (st "components") e.1 (jobj [])
          else res
        e.2.foldl
          (fun r ne =>
            setProp3 r (st "components") e.1 (sanitizeName ne.1) ne.2)
          res2
      else res)
    j

/-- `normalizeSchema` reclassification pass (source lines 554-597): for
each snapshot entry of `components.schemas` that is an object with an
HTTP-verb key, scan the current path table for entries that are objects
whose `$ref` is exactly the internal pointer to it; replace each such
path entry with the object, and if any was found delete the schema
entry.  This is the inner path-table scan body (source lines 566-581):
a path entry whose `$ref` equals the target pointer is replaced and the
found flag is raised. -/
def normReclassScanStep (target : Str) (repl : Json) (acc : Json × Bool)
    (pe : Str × Json) : Json × Bool :=
  match pe.2 with
  | .obj pf =>
      if fHas pf (st "$ref")
          ∧ fGet pf (st "$ref") = some (.str target) then
        (setProp2 acc.1 (st "paths") pe.1 repl, true)
      else acc
  | _ => acc

/-- The reclassification body for one `components.schemas` snapshot
entry (source lines 556-596). -/
def normReclassStep (res : Json) (e : Str × Json) : Json :=
  if e.2.isObjectLike ∧ hasOperations e.2 then
    let target := st "#/components/schemas/" ++ e.1
    let scanned :=
      if (getPropD res (st "paths")).truthy then
        (entriesOf (getPropD res (st "paths"))).foldl
          (normReclassScanStep target e.2) (res, false)
      else (res, false)
    if scanned.2 then
      deleteProp3 scanned.1 (st "components") (st "schemas") e.1
    else scanned.1
  else res

/-- The outer reclassification fold. -/
def normReclass (j : Json) : Json :=
  (entriesOf (getPropD (getPropD j (st "components")) (st "schemas"))).foldl
    normReclassStep j

/-- `normalizeSchema` (source lines 467-600): the deep clone is identity
on the modelled trees; then the steps above in order. -/
def normalizeSchema (schema : Json) (registry : ComponentRegistry) : Json :=
  let j1 := normEnsure schema
  let pr := normPathsLoop j1 registry
  let j3 := normRename pr.1 pr.2
  let j4 := normOtherTypes j3 pr.2
  normReclass j4

/-- `mergeSchemaFiles` (source lines 36-160) without the file-system and
JSON-encoding steps: the input is the ordered `(path, parsedTree)` list;
the result is the normalized tree and the warnings emitted during
resolution, or `none` for the failure result (no main file, or fuel ran
out). -/
def mergeCoreF (fuel : Nat) (cwd : Str) (generatedFiles : List (Str × Json)) :
    Option (Json × List Warning) :=
  match generatedFiles with
  | [] => none
  | (mainFilePath, _) :: _ =>
      if mainFilePath = [] then none
      else
        let mainFileDir := pathDirname mainFilePath
        let loaded := loadFiles cwd mainFileDir generatedFiles
        match alGet loaded.1 mainFilePath with
        | none => none
        | some mainFileRef =>
            match resolveAllReferences fuel cwd mainFileRef.content loaded.1
                mainFileDir loaded.2 with
            | none => none
            | some (resolvedSchema, s1) =>
                some (normalizeSchema resolvedSchema s1.registry, s1.warnings)

/-! ## General lemmas: fuel monotonicity

The fuel parameter only makes the JavaScript recursion total: whenever a
run completes within some fuel, any larger fuel gives the same answer. -/

/-- The condition under which `processNode` treats a mapping as a
reference node: the `$ref` property holds a truthy (non-empty) string,
and then that string. -/
def refOf (fields : JsonFields) : Option Str :=
  match fGet fields (st "$ref") with
  | some (.str r) => if r ≠ [] then some r else none
  | _ => none

/-- The truthy `refMap` entry used by `resolveReference`, if any. -/
def memoOf (s : RState) (ref : Str) : Option Str :=
  match alGet s.refMap ref with
  | some ir => if ir ≠ [] then some ir else none
  | none => none

/-! ## Reference-pointer predicates over trees -/

/-- Check one object property against a pointer predicate: when the key
is `$ref` and the value a truthy string, the pointer must satisfy `p`. -/
def fieldRefCheck (p : Str → Bool) (k : Str) (v : Json) : Bool :=
  if k = st "$ref" then
    match v with
    | .str r => if r ≠ [] then p r else true
    | _ => true
  else true

mutual

/-- Every reference pointer in the tree (a truthy string under a `$ref`
key) satisfies `p`. -/
def jsonRefsAll (p : Str → Bool) : Json → Bool
  | .arr items => listRefsAll p items
  | .obj fields => fieldsRefsAll p fields
  | _ => true

/-- `jsonRefsAll` over array elements. -/
def listRefsAll (p : Str → Bool) : JsonList → Bool
  | .nil => true
  | .cons hd tl => jsonRefsAll p hd && listRefsAll p tl

/-- `jsonRefsAll` over object properties. -/
def fieldsRefsAll (p : Str → Bool) : JsonFields → Bool
  | .nil => true
  | .cons k v tl => fieldRefCheck p k v && jsonRefsAll p v && fieldsRefsAll p tl

end

/-- Every reference pointer in the tree is internal (starts with `#`). -/
def noExternalPtrs (j : Json) : Bool :=
  jsonRefsAll (fun r => jsStartsWith r (st "#")) j

/-- Every reference pointer is internal or has no derivable component
name (the exception forced by the unresolved-and-nameless fallback). -/
def refsInternalOrNameless (j : Json) : Bool :=
  jsonRefsAll
    (fun r => jsStartsWith r (st "#") || ! optTruthy (extractComponentName r)) j

/-! ## Concrete inputs exercised by the claims -/

/-- The spec's three-file reclassification example. -/
def reclassFiles : List (Str × Json) :=
  [ (st "/p/main.yaml",
     jobj [(st "paths",
            jobj [(st "/users",
                   jobj [(st "$ref", .str (st "./paths/users.yaml"))])])])
  , (st "/p/paths/users.yaml",
     jobj [(st "get",
            jobj [(st "responses",
                   jobj [(st "200",
                          jobj [(st "$ref",
                                 .str (st "../components/schemas/User.yaml"))])])])])
  , (st "/p/components/schemas/User.yaml",
     jobj [(st "type", .str (st "object")),
           (st "properties",
            jobj [(st "id", jobj [(st "type", .str (st "string"))])])]) ]

/-- The User content of the example, verbatim. -/
def userContent : Json :=
  jobj [(st "type", .str (st "object")),
        (st "properties",
         jobj [(st "id", jobj [(st "type", .str (st "string"))])])]

/-- A path-item file referenced from a non-`paths` location: its
operation collection is registered as a schema and no path entry
references it. -/
def orphanOpFiles : List (Str × Json) :=
  [ (st "/p/main.yaml",
     jobj [(st "x", jobj [(st "$ref", .str (st "./paths/users.yaml"))])])
  , (st "/p/paths/users.yaml",
     jobj [(st "get", jobj [(st "responses", jobj [])])]) ]

/-- Two documents pointing at each other; both pointers have derivable
component names. -/
def cycleFiles : List (Str × Json) :=
  [ (st "/p/A.yaml", jobj [(st "foo", jobj [(st "$ref", .str (st "./B.yaml"))])])
  , (st "/p/B.yaml", jobj [(st "bar", jobj [(st "$ref", .str (st "./A.yaml"))])]) ]

/-- Two documents pointing at each other where the cyclically repeated
pointer (`./.B.yaml`) has no derivable component name. -/
def cycleNamelessFiles : List (Str × Json) :=
  [ (st "/p/A.yaml", jobj [(st "x", jobj [(st "$ref", .str (st "./.B.yaml"))])])
  , (st "/p/.B.yaml", jobj [(st "y", jobj [(st "$ref", .str (st "./A.yaml"))])]) ]

/-- A `$ref` key holding an object that resolves to an inlined string
scalar fabricates a reference node in the output whose pointer is the
file's content. -/
def fabricatedRefFiles : List (Str × Json) :=
  [ (st "/p/main.yaml",
     jobj [(st "$ref", jobj [(st "$ref", .str (st "./.S.yaml"))])])
  , (st "/p/.S.yaml", .str (st "hello")) ]

/-- Merged output of `fabricatedRefFiles`. -/
def fabricatedRefOut : Json :=
  jobj [(st "$ref", .str (st "hello")),
        (st "components", jobj [(st "schemas", jobj [])])]

/-- A main document with an unresolvable nameless pointer plus an
unreferenced pre-registered component file containing an external
pointer. -/
def namelessRefFiles : List (Str × Json) :=
  [ (st "/p/main.yaml",
     jobj [(st "a", jobj [(st "$ref", .str (st "./.yaml"))]), (st "b", .num 1)])
  , (st "/p/components/schemas/W.yaml",
     jobj [(st "inner", jobj [(st "$ref", .str (st "./Other.yaml"))])]) ]

/-- Two sibling properties holding the same unresolvable nameless
pointer. -/
def siblingNamelessFiles : List (Str × Json) :=
  [ (st "/p/main.yaml",
     jobj [(st "a", jobj [(st "$ref", .str (st "./.yaml"))]),
           (st "b", jobj [(st "$ref", .str (st "./.yaml"))])]) ]

/-- Two sibling properties holding the same resolvable pointer with a
derivable name. -/
def siblingResolvedFiles : List (Str × Json) :=
  [ (st "/p/main.yaml",
     jobj [(st "a", jobj [(st "$ref", .str (st "./s.yaml"))]),
           (st "b", jobj [(st "$ref", .str (st "./s.yaml"))])])
  , (st "/p/s.yaml", jobj [(st "type", .str (st "number"))]) ]

/-- Two distinct nodes holding the identical unresolvable nameless
pointer `./.yml`. -/
def dedupNamelessFiles : List (Str × Json) :=
  [ (st "/p/main.yaml",
     jobj [(st "a", jobj [(st "$ref", .str (st "./.yml"))]),
           (st "b", jobj [(st "$ref", .str (st "./.yml"))])]) ]

/-- The spec's deduplication scenario: two distinct nodes holding the
identical external pointer `./x.yaml`. -/
def dedupFiles : List (Str × Json) :=
  [ (st "/p/main.yaml",
     jobj [(st "a", jobj [(st "$ref", .str (st "./x.yaml"))]),
           (st "b", jobj [(st "$ref", .str (st "./x.yaml"))])])
  , (st "/p/x.yaml", jobj [(st "type", .str (st "string"))]) ]

/-- A component file whose derived name `\x7bid\x7d` holds characters
invalid in a component name. -/
def braceNameFiles : List (Str × Json) :=
  [ (st "/p/main.yaml",
     jobj [(st "p",
            jobj [(st "$ref", .str (st "./components/schemas/\x7bid\x7d.yaml"))])])
  , (st "/p/components/schemas/\x7bid\x7d.yaml",
     jobj [(st "type", .str (st "object"))]) ]

/-- A main document whose own `components.schemas` carries an invalid
name; the normalizer only sanitizes registry names. -/
def invalidTreeNameFiles : List (Str × Json) :=
  [ (st "/p/main.yaml",
     jobj [(st "components",
            jobj [(st "schemas",
                   jobj [(st "\x7bid\x7d", jobj [(st "type", .str (st "object"))])])])]) ]

/-- Merged output of the three-file reclassification example. -/
def reclassOut : Json :=
  jobj [(st "paths",
         jobj [(st "/users",
                jobj [(st "get",
                       jobj [(st "responses",
                              jobj [(st "200",
                                     refNode (st "#/components/schemas/User"))])])])]),
        (st "components", jobj [(st "schemas", jobj [(st "User", userContent)])])]

/-- Merged output of `orphanOpFiles`. -/
def orphanOpOut : Json :=
  jobj [(st "x", refNode (st "#/components/schemas/users")),
        (st "components",
         jobj [(st "schemas",
                jobj [(st "users",
                       jobj [(st "get", jobj [(st "responses", jobj [])])])])])]

/-- Merged output of `cycleFiles`. -/
def cycleOut : Json :=
  jobj [(st "foo", refNode (st "#/components/schemas/B")),
        (st "components",
         jobj [(st "schemas",
                jobj [(st "A", jobj [(st "foo", refNode (st "#/components/schemas/B"))]),
                      (st "B", jobj [(st "bar", refNode (st "#/components/schemas/A"))])])])]

/-- Merged output of `cycleNamelessFiles`. -/
def cycleNamelessOut : Json :=
  jobj [(st "x", jobj [(st "y", refNode (st "#/components/schemas/A"))]),
        (st "components",
         jobj [(st "schemas",
                jobj [(st "A",
                       jobj [(st "x", circularPlaceholder (st "./.B.yaml"))])])])]

/-- Merged output of `namelessRefFiles`. -/
def namelessRefOut : Json :=
  jobj [(st "a", refNode (st "./.yaml")), (st "b", .num 1),
        (st "components",
         jobj [(st "schemas",
                jobj [(st "W",
                       jobj [(st "inner", refNode (st "./Other.yaml"))])])])]

/-- Merged output of `siblingNamelessFiles`. -/
def siblingNamelessOut : Json :=
  jobj [(st "a", refNode (st "./.yaml")),
        (st "b", circularPlaceholder (st "./.yaml")),
        (st "components", jobj [(st "schemas", jobj [])])]

/-- Merged output of `siblingResolvedFiles`. -/
def siblingResolvedOut : Json :=
  jobj [(st "a", refNode (st "#/components/schemas/s")),
        (st "b", refNode (st "#/components/schemas/s")),
        (st "components",
         jobj [(st "schemas",
                jobj [(st "s", jobj [(st "type", .str (st "number"))])])])]

/-- Merged output of `dedupNamelessFiles`. -/
def dedupNamelessOut : Json :=
  jobj [(st "a", refNode (st "./.yml")),
        (st "b", circularPlaceholder (st "./.yml")),
        (st "components", jobj [(st "schemas", jobj [])])]

/-- Merged output of `dedupFiles`. -/
def dedupOut : Json :=
  jobj [(st "a", refNode (st "#/components/schemas/x")),
        (st "b", refNode (st "#/components/schemas/x")),
        (st "components",
         jobj [(st "schemas",
                jobj [(st "x", jobj [(st "type", .str (st "string"))])])])]

/-- Merged output of `braceNameFiles`. -/
def braceNameOut : Json :=
  jobj [(st "p", refNode (st "#/components/schemas/_id_")),
        (st "components",
         jobj [(st "schemas",
                jobj [(st "_id_", jobj [(st "type", .str (st "object"))])])])]

/-- Merged output of `invalidTreeNameFiles` (identical to its input
tree). -/
def invalidTreeNameOut : Json :=
  jobj [(st "components",
         jobj [(st "schemas",
                jobj [(st "\x7bid\x7d", jobj [(st "type", .str (st "object"))])])])]

/-- Modelled from the spec, as amended by the counterexample: the
fallback part of the naming rule - the portion of the pointer's base
name before its first dot. -/
def specBasePart (r : Str) : Str :=
  match jsSplitChar (pathBasename r) '.' with
  | [] => []
  | p0 :: _ => p0

/-- Modelled from the spec, as amended by the counterexample: the naming
rule as a whole - the regex capture after `/components/schemas/` when
one exists, otherwise the base-name part before the first dot, failing
exactly when that part is empty. -/
def specComponentName (r : Str) : Option Str :=
  match matchCompSchemas r with
  | some nm => some nm
  | none => if specBasePart r = [] then none else some (specBasePart r)

/-! ## Claim C1 (amended): infrastructure

The amended claim restricts the input set (no pre-registered component
files; every `$ref` key in every input document holds a non-empty
string) and allows the unresolved-nameless exception.  `wfJson` is the
input-side condition; `goodJson` is the conclusion-side invariant
carried through the resolution. -/

/-- The pointer condition of the amended C1: internal, or no derivable
component name. -/
def ptrIntOrNameless (r : Str) : Bool :=
  jsStartsWith r (st "#") || ! optTruthy (extractComponentName r)

/-- Input-side condition on one property: a `$ref` key holds a non-empty
string. -/
def wfKV (k : Str) (v : Json) : Bool :=
  if k = st "$ref" then
    match v with
    | .str r => r ≠ []
    | _ => false
  else true

mutual

/-- Input-side well-formedness: every `$ref` property holds a non-empty
string. -/
def wfJson : Json → Bool
  | .arr items => wfList items
  | .obj fields => wfFields fields
  | _ => true
termination_by structural j => j

/-- `wfJson` over array elements. -/
def wfList : JsonList → Bool
  | .nil => true
  | .cons hd tl => wfJson hd && wfList tl
termination_by structural l => l

/-- `wfJson` over object properties. -/
def wfFields : JsonFields → Bool
  | .nil => true
  | .cons k v tl => wfKV k v && wfJson v && wfFields tl
termination_by structural l => l

end

/-- Output-side condition on one property: a `$ref` key holds a
non-empty string whose pointer is internal or nameless. -/
def goodKV (k : Str) (v : Json) : Bool :=
  if k = st "$ref" then
    match v with
    | .str r => r ≠ [] && ptrIntOrNameless r
    | _ => false
  else true

mutual

/-- Output-side invariant: every `$ref` property holds a non-empty
string whose pointer is internal or nameless. -/
def goodJson : Json → Bool
  | .arr items => goodList items
  | .obj fields => goodFields fields
  | _ => true
termination_by structural j => j

/-- `goodJson` over array elements. -/
def goodList : JsonList → Bool
  | .nil => true
  | .cons hd tl => goodJson hd && goodList tl
termination_by structural l => l

/-- `goodJson` over object properties. -/
def goodFields : JsonFields → Bool
  | .nil => true
  | .cons k v tl => goodKV k v && goodJson v && goodFields tl
termination_by structural l => l

end

/-- The resolution-state invariant of the amended C1: all schema-registry
values good, all `refMap` values internal, all other collections (never
written during resolution) empty. -/
def rstateOkC1 (s : RState) : Bool :=
  s.registry.schemas.all (fun e => goodJson e.2)
  && s.refMap.all (fun e => jsStartsWith e.2 (st "#"))
  && s.registry.responses.isEmpty && s.registry.parameters.isEmpty
  && s.registry.examples.isEmpty && s.registry.requestBodies.isEmpty
  && s.registry.headers.isEmpty && s.registry.securitySchemes.isEmpty
  && s.registry.links.isEmpty && s.registry.callbacks.isEmpty

/-- Every file-map entry's content is well-formed. -/
def fmOk (fm : FileMap) : Bool := fm.all (fun e => wfJson e.2.content)

mutual

/-- A tree on which one `processNode` walk is the identity: scalars,
arrays and plain objects of such trees, and reference nodes that consist
of exactly the one `$ref` key holding a non-empty internal pointer. -/
def idJson : Json → Bool
  | .arr items => idList items
  | .obj fields =>
      match refOf fields with
      | some r =>
          jsStartsWith r (st "#")
          && decide (fields = JsonFields.cons (st "$ref") (.str r) JsonFields.nil)
      | none => idFields fields
  | _ => true
termination_by structural j => j

/-- `idJson` over array elements. -/
def idList : JsonList → Bool
  | .nil => true
  | .cons hd tl => idJson hd && idList tl
termination_by structural l => l

/-- `idJson` over object properties. -/
def idFields : JsonFields → Bool
  | .nil => true
  | .cons _ v tl => idJson v && idFields tl
termination_by structural l => l

end

/-- The file-name core of the `i`-th chain document: `i + 1` letters `c`
followed by `.yaml`. -/
def chainBody (i : Nat) : Str := List.replicate (i + 1) 'c' ++ st ".yaml"

/-- The absolute path of the `i`-th chain document. -/
def chainPath (i : Nat) : Str := st "/p/" ++ chainBody i

/-- The `i`-th chain document: a reference to the next document, except
the last, which is a scalar-typed leaf. -/
def chainDoc (n i : Nat) : Json :=
  if i < n then jobj [(st "a", jobj [(st "$ref", .str (chainPath (i + 1)))])]
  else jobj [(st "type", .str (st "string"))]

/-- The chain input family: documents `0` to `n`, each (except the last)
holding one external reference to the next - a nested-reference chain of
depth `n`. -/
def chainFiles (n : Nat) : List (Str × Json) :=
  (List.range (n + 1)).map (fun i => (chainPath i, chainDoc n i))

/-- The merge terminates (some fuel suffices) and reports no diagnostic
(the warning list is empty). -/
def mergesCleanly (files : List (Str × Json)) : Prop :=
  ∃ fuel out, mergeCoreF fuel (st "/cwd") files = some (out, [])

/-- Modelled from the spec's claim, instantiated on the explicit chain
family: some depth bound `D` exists past which every deeper chain input
fails with a diagnostic rather than resolving. -/
def specDepthLimited : Prop :=
  ∃ D : Nat, ∀ n : Nat, D < n → ¬ mergesCleanly (chainFiles n)

/-- The loaded chain file map. -/
def chainFM (n : Nat) : FileMap :=
  (loadFiles (st "/cwd") (st "/p") (chainFiles n)).1

/-! Step equations for the resolver, one per branch of the source. -/

theorem procNode_scalar (n : Nat) (cwd : Str) (node : Json) (fm : FileMap)
    (bp : Str) (s : RState) (vis : List Str) (d : Nat)
    (h : ¬ node.isObjectLike) :
    procNode (n + 1) cwd node fm bp s vis d = some (node, s, vis) := by
  cases node <;> simp [Json.isObjectLike] at h ⊢ <;> simp [procNode]

theorem procNode_arr (n : Nat) (cwd : Str) (items : JsonList) (fm : FileMap)
    (bp : Str) (s : RState) (vis : List Str) (d : Nat) :
    procNode (n + 1) cwd (.arr items) fm bp s vis d =
      match procItems n cwd items fm bp s vis d with
      | some (items2, s2, v2) => some (.arr items2, s2, v2)
      | none => none := by simp only [procNode]

theorem procNode_obj (n : Nat) (cwd : Str) (fields : JsonFields)
    (fm : FileMap) (bp : Str) (s : RState) (vis : List Str) (d : Nat) :
    procNode (n + 1) cwd (.obj fields) fm bp s vis d =
      match refOf fields with
      | some r => resolveRef n cwd r fm bp s vis d
      | none =>
          match procFields n cwd fields fm bp s vis d with
          | some (fields2, s2, v2) => some (.obj fields2, s2, v2)
          | none => none := by
  simp only [procNode, refOf]
  cases hg : fGet fields (st "$ref") with
  | none => rfl
  | some jv =>
      cases jv <;> try rfl
      case str rs =>
        rcases eq_or_ne rs [] with hrs | hrs
        · subst hrs; simp
        · simp [hrs]

theorem procItems_nil (n : Nat) (cwd : Str) (fm : FileMap) (bp : Str)
    (s : RState) (vis : List Str) (d : Nat) :
    procItems (n + 1) cwd .nil fm bp s vis d = some (.nil, s, vis) := by
  simp only [procItems]

theorem procItems_cons (n : Nat) (cwd : Str) (hd : Json) (tl : JsonList)
    (fm : FileMap) (bp : Str) (s : RState) (vis : List Str) (d : Nat) :
    procItems (n + 1) cwd (.cons hd tl) fm bp s vis d =
      match procNode n cwd hd fm bp s vis (d + 1) with
      | some (hd2, s2, v2) =>
          match procItems n cwd tl fm bp s2 v2 d with
          | some (tl2, s3, v3) => some (.cons hd2 tl2, s3, v3)
          | none => none
      | none => none := by simp only [procItems]

theorem procFields_nil (n : Nat) (cwd : Str) (fm : FileMap) (bp : Str)
    (s : RState) (vis : List Str) (d : Nat) :
    procFields (n + 1) cwd .nil fm bp s vis d = some (.nil, s, vis) := by
  simp only [procFields]

theorem procFields_cons (n : Nat) (cwd : Str) (k : Str) (v : Json)
    (tl : JsonFields) (fm : FileMap) (bp : Str) (s : RState)
    (vis : List Str) (d : Nat) :
    procFields (n + 1) cwd (.cons k v tl) fm bp s vis d =
      match procNode n cwd v fm bp s vis (d + 1) with
      | some (v2, s2, vis2) =>
          match procFields n cwd tl fm bp s2 vis2 d with
          | some (tl2, s3, vis3) => some (.cons k v2 tl2, s3, vis3)
          | none => none
      | none => none := by simp only [procFields]

theorem resolveRef_internal (n : Nat) (cwd ref : Str) (fm : FileMap)
    (bp : Str) (s : RState) (vis : List Str) (d : Nat)
    (h : jsStartsWith ref (st "#") = true) :
    resolveRef (n + 1) cwd ref fm bp s vis d = some (refNode ref, s, vis) := by
  simp [resolveRef, h]

theorem resolveRef_memo (n : Nat) (cwd ref : Str) (fm : FileMap) (bp : Str)
    (s : RState) (vis : List Str) (d : Nat) (ir : Str)
    (h1 : jsStartsWith ref (st "#") = false) (h2 : memoOf s ref = some ir) :
    resolveRef (n + 1) cwd ref fm bp s vis d = some (refNode ir, s, vis) := by
  simp only [resolveRef, h1, Bool.false_eq_true, if_false]
  simp only [memoOf] at h2
  cases hm : alGet s.refMap ref with
  | none => rw [hm] at h2; exact Option.noConfusion h2
  | some ir' =>
      rw [hm] at h2
      rcases eq_or_ne ir' [] with hir | hir
      · subst hir; simp at h2
      · simp only [ne_eq, hir, not_false_eq_true, if_true] at h2 ⊢
        cases h2; rfl

theorem resolveRef_cycle (n : Nat) (cwd ref : Str) (fm : FileMap) (bp : Str)
    (s : RState) (vis : List Str) (d : Nat)
    (h1 : jsStartsWith ref (st "#") = false) (h2 : memoOf s ref = none)
    (h3 : vis.contains ref = true) :
    resolveRef (n + 1) cwd ref fm bp s vis d =
      match extractComponentName ref with
      | some nm =>
          if nm ≠ [] then
            some (refNode (st "#/components/schemas/" ++ nm),
                  addWarn s (.circular ref), vis)
          else some (circularPlaceholder ref, addWarn s (.circular ref), vis)
      | none =>
          some (circularPlaceholder ref, addWarn s (.circular ref), vis) := by
  replace h3 : ref ∈ vis := by simpa using h3
  simp only [resolveRef, h1, Bool.false_eq_true, if_false]
  simp only [memoOf] at h2
  cases hm : alGet s.refMap ref with
  | none => rw [hm] at h2; simp [h3]
  | some ir' =>
      rw [hm] at h2
      rcases eq_or_ne ir' [] with hir | hir
      · subst hir; simp [h3]
      · simp [hir] at h2

theorem resolveRef_hit (n : Nat) (cwd ref : Str) (fm : FileMap) (bp : Str)
    (s : RState) (vis : List Str) (d : Nat) (fileRef : FileRef)
    (h1 : jsStartsWith ref (st "#") = false) (h2 : memoOf s ref = none)
    (h3 : vis.contains ref = false)
    (h4 : lookupRef cwd fm bp ref = some fileRef) :
    resolveRef (n + 1) cwd ref fm bp s vis d =
      match procNode n cwd fileRef.content fm
          (pathDirname fileRef.absolutePath) s (vis ++ [ref]) (d + 1) with
      | none => none
      | some (resolvedContent, s3, _) =>
          match extractComponentName ref with
          | some nm =>
              if nm ≠ [] then
                some (refNode (st "#/components/schemas/" ++ nm),
                      { s3 with
                        registry :=
                          { s3.registry with
                            schemas := alSet s3.registry.schemas nm
                              resolvedContent }
                        refMap := alSet s3.refMap ref
                          (st "#/components/schemas/" ++ nm) },
                      vis ++ [ref])
              else some (resolvedContent, s3, vis ++ [ref])
          | none => some (resolvedContent, s3, vis ++ [ref]) := by
  replace h3 : ref ∉ vis := by simpa using h3
  simp only [resolveRef, h1, Bool.false_eq_true, if_false]
  simp only [memoOf] at h2
  cases hm : alGet s.refMap ref with
  | none => rw [hm] at h2; simp [h3, h4]
  | some ir' =>
      rw [hm] at h2
      rcases eq_or_ne ir' [] with hir | hir
      · subst hir; simp [h3, h4]
      · simp [hir] at h2

theorem resolveRef_miss (n : Nat) (cwd ref : Str) (fm : FileMap) (bp : Str)
    (s : RState) (vis : List Str) (d : Nat)
    (h1 : jsStartsWith ref (st "#") = false) (h2 : memoOf s ref = none)
    (h3 : vis.contains ref = false) (h4 : lookupRef cwd fm bp ref = none) :
    resolveRef (n + 1) cwd ref fm bp s vis d =
      match extractComponentName ref with
      | some nm =>
          if nm ≠ [] then
            some (refNode (st "#/components/schemas/" ++ nm),
                  { addWarn s (.unresolved ref) with
                    registry :=
                      { (addWarn s (.unresolved ref)).registry with
                        schemas :=
                          alSet (addWarn s (.unresolved ref)).registry.schemas
                            nm (unresolvedPlaceholder ref) } },
                  vis ++ [ref])
          else some (refNode ref, addWarn s (.unresolved ref), vis ++ [ref])
      | none => some (refNode ref, addWarn s (.unresolved ref), vis ++ [ref]) := by
  replace h3 : ref ∉ vis := by simpa using h3
  simp only [resolveRef, h1, Bool.false_eq_true, if_false]
  simp only [memoOf] at h2
  cases hm : alGet s.refMap ref with
  | none => rw [hm] at h2; simp [h3, h4]
  | some ir' =>
      rw [hm] at h2
      rcases eq_or_ne ir' [] with hir | hir
      · subst hir; simp [h3, h4]
      · simp [hir] at h2

/-! ## Fuel monotonicity

The fuel parameter only makes the JavaScript recursion total: whenever a
run completes within some fuel, any larger fuel gives the same answer. -/

/-- One-step fuel monotonicity for the four mutually recursive resolver
functions, proved jointly by induction on the fuel. -/
theorem eval_mono_succ (fuel : Nat) :
    (∀ cwd node fm bp s vis d r,
        procNode fuel cwd node fm bp s vis d = some r →
        procNode (fuel + 1) cwd node fm bp s vis d = some r)
    ∧ (∀ cwd items fm bp s vis d r,
        procItems fuel cwd items fm bp s vis d = some r →
        procItems (fuel + 1) cwd items fm bp s vis d = some r)
    ∧ (∀ cwd fields fm bp s vis d r,
        procFields fuel cwd fields fm bp s vis d = some r →
        procFields (fuel + 1) cwd fields fm bp s vis d = some r)
    ∧ (∀ cwd ref fm bp s vis d r,
        resolveRef fuel cwd ref fm bp s vis d = some r →
        resolveRef (fuel + 1) cwd ref fm bp s vis d = some r) := by
  induction fuel with
  | zero =>
      refine ⟨?_, ?_, ?_, ?_⟩ <;> intro cwd x fm bp s vis d r h <;>
        simp [procNode, procItems, procFields, resolveRef] at h
  | succ n ih =>
      obtain ⟨ihN, ihI, ihF, ihR⟩ := ih
      refine ⟨?_, ?_, ?_, ?_⟩
      · intro cwd node fm bp s vis d r h
        cases node
        case arr items =>
          rw [procNode_arr] at h ⊢
          cases hI : procItems n cwd items fm bp s vis d with
          | none => rw [hI] at h; exact Option.noConfusion h
          | some v =>
              obtain ⟨items2, s2, v2⟩ := v
              rw [hI] at h
              rw [ihI _ _ _ _ _ _ _ _ hI]
              exact h
        case obj fields =>
          rw [procNode_obj] at h ⊢
          cases hro : refOf fields with
          | some rs =>
              rw [hro] at h
              exact ihR _ _ _ _ _ _ _ _ h
          | none =>
              rw [hro] at h
              cases hF : procFields n cwd fields fm bp s vis d with
              | none => rw [hF] at h; exact Option.noConfusion h
              | some v =>
                  obtain ⟨fields2, s2, v2⟩ := v
                  rw [hF] at h
                  rw [ihF _ _ _ _ _ _ _ _ hF]
                  exact h
        all_goals
          rw [procNode_scalar n _ _ _ _ _ _ _ (by simp [Json.isObjectLike])] at h
        all_goals
          rw [procNode_scalar (n + 1) _ _ _ _ _ _ _ (by simp [Json.isObjectLike])]
        all_goals exact h
      · intro cwd items fm bp s vis d r h
        cases items with
        | nil => rw [procItems_nil] at h ⊢; exact h
        | cons hd tl =>
            rw [procItems_cons] at h ⊢
            cases hH : procNode n cwd hd fm bp s vis (d + 1) with
            | none => rw [hH] at h; exact Option.noConfusion h
            | some v =>
                obtain ⟨hd2, s2, v2⟩ := v
                rw [hH] at h
                dsimp only at h
                rw [ihN _ _ _ _ _ _ _ _ hH]
                dsimp only
                cases hT : procItems n cwd tl fm bp s2 v2 d with
                | none => rw [hT] at h; exact Option.noConfusion h
                | some w =>
                    obtain ⟨tl2, s3, v3⟩ := w
                    rw [hT] at h
                    rw [ihI _ _ _ _ _ _ _ _ hT]
                    exact h
      · intro cwd fields fm bp s vis d r h
        cases fields with
        | nil => rw [procFields_nil] at h ⊢; exact h
        | cons k v tl =>
            rw [procFields_cons] at h ⊢
            cases hH : procNode n cwd v fm bp s vis (d + 1) with
            | none => rw [hH] at h; exact Option.noConfusion h
            | some w =>
                obtain ⟨v2, s2, vis2⟩ := w
                rw [hH] at h
                dsimp only at h
                rw [ihN _ _ _ _ _ _ _ _ hH]
                dsimp only
                cases hT : procFields n cwd tl fm bp s2 vis2 d with
                | none => rw [hT] at h; exact Option.noConfusion h
                | some w2 =>
                    obtain ⟨tl2, s3, vis3⟩ := w2
                    rw [hT] at h
                    rw [ihF _ _ _ _ _ _ _ _ hT]
                    exact h
      · intro cwd ref fm bp s vis d r h
        cases h1 : jsStartsWith ref (st "#") with
        | true =>
            rw [resolveRef_internal n _ _ _ _ _ _ _ h1] at h
            rw [resolveRef_internal (n + 1) _ _ _ _ _ _ _ h1]
            exact h
        | false =>
            cases h2 : memoOf s ref with
            | some ir =>
                rw [resolveRef_memo n _ _ _ _ _ _ _ _ h1 h2] at h
                rw [resolveRef_memo (n + 1) _ _ _ _ _ _ _ _ h1 h2]
                exact h
            | none =>
                cases h3 : vis.contains ref with
                | true =>
                    rw [resolveRef_cycle n _ _ _ _ _ _ _ h1 h2 h3] at h
                    rw [resolveRef_cycle (n + 1) _ _ _ _ _ _ _ h1 h2 h3]
                    exact h
                | false =>
                    cases h4 : lookupRef cwd fm bp ref with
                    | none =>
                        rw [resolveRef_miss n _ _ _ _ _ _ _ h1 h2 h3 h4] at h
                        rw [resolveRef_miss (n + 1) _ _ _ _ _ _ _ h1 h2 h3 h4]
                        exact h
                    | some fileRef =>
                        rw [resolveRef_hit n _ _ _ _ _ _ _ _ h1 h2 h3 h4] at h
                        rw [resolveRef_hit (n + 1) _ _ _ _ _ _ _ _ h1 h2 h3 h4]
                        cases hP : procNode n cwd fileRef.content fm
                            (pathDirname fileRef.absolutePath) s
                            (vis ++ [ref]) (d + 1) with
                        | none => rw [hP] at h; exact Option.noConfusion h
                        | some w =>
                            obtain ⟨rc, s3, vv⟩ := w
                            rw [hP] at h
                            rw [ihN _ _ _ _ _ _ _ _ hP]
                            exact h

/-- Fuel monotonicity for `procNode`. -/
theorem procNode_mono {f g : Nat} (hfg : f ≤ g) {cwd node fm bp s vis d r}
    (h : procNode f cwd node fm bp s vis d = some r) :
    procNode g cwd node fm bp s vis d = some r := by
  induction hfg with
  | refl => exact h
  | step _ ih => exact (eval_mono_succ _).1 _ _ _ _ _ _ _ _ ih

/-- Fuel monotonicity for the whole merge. -/
theorem mergeCoreF_mono {f g : Nat} (hfg : f ≤ g) {cwd files r}
    (h : mergeCoreF f cwd files = some r) :
    mergeCoreF g cwd files = some r := by
  cases files with
  | nil => exact Option.noConfusion h
  | cons e rest =>
      obtain ⟨mainFilePath, c⟩ := e
      simp only [mergeCoreF, resolveAllReferences] at h ⊢
      rcases eq_or_ne mainFilePath [] with hmp | hmp
      · subst hmp; simp at h
      · simp only [hmp, if_false, ne_eq, not_false_eq_true, if_true] at h ⊢
        cases hfind : alGet (loadFiles cwd (pathDirname mainFilePath)
            ((mainFilePath, c) :: rest)).1 mainFilePath with
        | none => rw [hfind] at h; exact h
        | some fr =>
            rw [hfind] at h
            dsimp only at h ⊢
            cases hP : procNode f cwd fr.content
                (loadFiles cwd (pathDirname mainFilePath)
                  ((mainFilePath, c) :: rest)).1
                (pathDirname mainFilePath)
                ⟨(loadFiles cwd (pathDirname mainFilePath)
                  ((mainFilePath, c) :: rest)).2, [], []⟩ [] 0 with
            | none => rw [hP] at h; exact Option.noConfusion h
            | some w =>
                obtain ⟨rs, s1, vv⟩ := w
                rw [hP] at h
                rw [procNode_mono hfg hP]
                exact h

/-! ## Claim C6 -/

/-- C6 counterexample: an operation collection (a mapping with a `get`
key) that no path entry references is left under `components.schemas` in
the merged output, so a mapping with a recognized HTTP-verb key can be
left under `components.schemas`. -/
theorem c6_unreferenced_operation_item_stays :
    mergeCoreF 30 (st "/cwd") orphanOpFiles = some (orphanOpOut, [])
    ∧ hasOperations (getPropD (getPropD (getPropD orphanOpOut
        (st "components")) (st "schemas")) (st "users")) = true := by
  constructor <;> decide

/-- C6 amended: the spec's three-file example merges exactly as stated -
`paths./users.get.responses.200` is the internal `User` pointer and
`components.schemas.User` is the User content verbatim, with no
HTTP-verb key left under `components.schemas` in that output; but an
operation collection is removed from `components.schemas` only when some
top-level path entry references it (see the counterexample). -/
theorem c6_reclassification_example :
    mergeCoreF 30 (st "/cwd") reclassFiles = some (reclassOut, [])
    ∧ getPropD (getPropD (getPropD (getPropD (getPropD reclassOut
        (st "paths")) (st "/users")) (st "get")) (st "responses"))
        (st "200") = refNode (st "#/components/schemas/User")
    ∧ getPropD (getPropD (getPropD reclassOut (st "components"))
        (st "schemas")) (st "User") = userContent
    ∧ (entriesOf (getPropD (getPropD reclassOut (st "components"))
        (st "schemas"))).all (fun e => ! hasOperations e.2) = true := by
  refine ⟨by decide, by decide, by decide, by decide⟩

/-! ## Claim C4 -/

/-- C4 counterexample: a two-document cycle whose repeated pointer has no
derivable component name terminates, but the cyclic site holds an inline
placeholder object - which carries no pointer at all - rather than an
internal pointer. -/
theorem c4_nameless_cycle_placeholder :
    mergeCoreF 30 (st "/cwd") cycleNamelessFiles =
      some (cycleNamelessOut, [Warning.circular (st "./.B.yaml")])
    ∧ getPropD (getPropD (getPropD (getPropD (getPropD cycleNamelessOut
        (st "components")) (st "schemas")) (st "A")) (st "x"))
        (st "$ref") = Json.null
    ∧ getPropD (getPropD (getPropD (getPropD cycleNamelessOut
        (st "components")) (st "schemas")) (st "A")) (st "x") =
        circularPlaceholder (st "./.B.yaml") := by
  refine ⟨by decide, by decide, by decide⟩

/-- C4 amended: for the two-document cycle (A points at B, B back at A)
merging terminates - the result is stable for every sufficient fuel -
with no failure, and the cyclic site holds an internal pointer, provided
the cyclically repeated pointer has a derivable component name (without
one, the site holds a placeholder object instead; see the
counterexample). -/
theorem c4_cycle_terminates (f : Nat) (hf : 30 ≤ f) :
    mergeCoreF f (st "/cwd") cycleFiles =
      some (cycleOut, [Warning.circular (st "./B.yaml")])
    ∧ getPropD (getPropD (getPropD (getPropD cycleOut (st "components"))
        (st "schemas")) (st "A")) (st "foo") =
        refNode (st "#/components/schemas/B") := by
  refine ⟨mergeCoreF_mono hf (by decide), by decide⟩

/-- Witness for `c4_cycle_terminates` at fuel 31. -/
theorem c4_cycle_terminates_witness :
    mergeCoreF 31 (st "/cwd") cycleFiles =
      some (cycleOut, [Warning.circular (st "./B.yaml")])
    ∧ getPropD (getPropD (getPropD (getPropD cycleOut (st "components"))
        (st "schemas")) (st "A")) (st "foo") =
        refNode (st "#/components/schemas/B") :=
  c4_cycle_terminates 31 (by norm_num)

/-! ## Claim C2 -/

/-- C2 counterexample: two sibling branches (neither an ancestor of the
other) holding the same external pointer: resolving the second sibling
takes the cycle branch - the circular-reference warning fires and the
second sibling becomes the circular placeholder - because the visited
set is mutated in place across siblings and the first occurrence
(unresolvable, nameless) recorded no RefMap entry. -/
theorem c2_sibling_triggers_cycle_branch :
    mergeCoreF 30 (st "/cwd") siblingNamelessFiles =
      some (siblingNamelessOut,
            [Warning.unresolved (st "./.yaml"),
             Warning.circular (st "./.yaml")])
    ∧ getPropD siblingNamelessOut (st "b") =
        circularPlaceholder (st "./.yaml") := by
  refine ⟨by decide, by decide⟩

/-- C2 amended: a sibling branch repeating an external pointer is
shielded from the cycle branch exactly when the pointer already has a
truthy RefMap entry (first occurrence resolved to a document with a
derivable name): the resolver then returns the memoized internal pointer
with the state - warnings included - untouched; this is exhibited on two
siblings sharing a resolvable named pointer, which merge with no
circular warning.  When the first occurrence records no RefMap entry,
the in-place mutation of the visited set makes the second sibling hit
the cycle branch (see the counterexample). -/
theorem c2_refmap_shields_siblings :
    (∀ (n : Nat) (cwd ref : Str) (fm : FileMap) (bp : Str) (s : RState)
        (vis : List Str) (d : Nat) (ir : Str),
        jsStartsWith ref (st "#") = false → memoOf s ref = some ir →
        resolveRef (n + 1) cwd ref fm bp s vis d =
          some (refNode ir, s, vis))
    ∧ mergeCoreF 30 (st "/cwd") siblingResolvedFiles =
        some (siblingResolvedOut, []) := by
  refine ⟨?_, by decide⟩
  intro n cwd ref fm bp s vis d ir h1 h2
  exact resolveRef_memo n cwd ref fm bp s vis d ir h1 h2

/-- Witness for `c2_refmap_shields_siblings`: the shield applied at a
concrete state whose RefMap maps `./k.yaml` to an internal pointer. -/
theorem c2_refmap_shields_siblings_witness :
    resolveRef 3 (st "/c") (st "./k.yaml") [] (st "/p")
      ⟨emptyRegistry, [(st "./k.yaml", st "#/components/schemas/k")], []⟩
      [] 0 =
    some (refNode (st "#/components/schemas/k"),
          ⟨emptyRegistry, [(st "./k.yaml", st "#/components/schemas/k")], []⟩,
          []) :=
  c2_refmap_shields_siblings.1 2 (st "/c") (st "./k.yaml") [] (st "/p")
    ⟨emptyRegistry, [(st "./k.yaml", st "#/components/schemas/k")], []⟩
    [] 0 (st "#/components/schemas/k") (by decide) (by decide)

/-- Reading an association list after a write. -/
theorem alGet_alSet {α : Type} (l : List (Str × α)) (k2 k : Str) (v2 : α) :
    alGet (alSet l k2 v2) k = if k2 = k then some v2 else alGet l k := by
  induction l with
  | nil => by_cases h : k2 = k <;> simp [alGet, alSet, h]
  | cons e rest ih =>
      obtain ⟨k', v'⟩ := e
      by_cases h1 : k' = k2
      · subst h1
        by_cases h2 : k' = k
        · subst h2; simp [alGet, alSet]
        · simp [alGet, alSet, h2]
      · by_cases h2 : k' = k
        · subst h2
          have h3 : ¬ (k2 = k') := fun he => h1 he.symm
          simp [alGet, alSet, h1, h3]
        · simp [alGet, alSet, h1, h2, ih]

/-- Once a truthy entry is in the `refMap`, the whole resolution keeps
it unchanged: the memo is written only for pointers whose memo lookup
just failed, so an existing translation is never overwritten.  Proved
jointly for the four mutually recursive resolver functions. -/
theorem refMap_preserved (fuel : Nat) :
    (∀ cwd node fm bp s vis d j s' vis',
        procNode fuel cwd node fm bp s vis d = some (j, s', vis') →
        ∀ k v, v ≠ [] → alGet s.refMap k = some v → alGet s'.refMap k = some v)
    ∧ (∀ cwd items fm bp s vis d j s' vis',
        procItems fuel cwd items fm bp s vis d = some (j, s', vis') →
        ∀ k v, v ≠ [] → alGet s.refMap k = some v → alGet s'.refMap k = some v)
    ∧ (∀ cwd fields fm bp s vis d j s' vis',
        procFields fuel cwd fields fm bp s vis d = some (j, s', vis') →
        ∀ k v, v ≠ [] → alGet s.refMap k = some v → alGet s'.refMap k = some v)
    ∧ (∀ cwd ref fm bp s vis d j s' vis',
        resolveRef fuel cwd ref fm bp s vis d = some (j, s', vis') →
        ∀ k v, v ≠ [] → alGet s.refMap k = some v → alGet s'.refMap k = some v) := by
  induction fuel with
  | zero =>
      refine ⟨?_, ?_, ?_, ?_⟩ <;> intro cwd x fm bp s vis d j s' vis' h <;>
        simp [procNode, procItems, procFields, resolveRef] at h
  | succ n ih =>
      obtain ⟨ihN, ihI, ihF, ihR⟩ := ih
      refine ⟨?_, ?_, ?_, ?_⟩
      · intro cwd node fm bp s vis d j s' vis' h
        cases node
        case arr items =>
          rw [procNode_arr] at h
          cases hI : procItems n cwd items fm bp s vis d with
          | none => rw [hI] at h; exact Option.noConfusion h
          | some v =>
              obtain ⟨items2, s2, v2⟩ := v
              rw [hI] at h
              have h2 : some (Json.arr items2, s2, v2) =
                  some (j, s', vis') := h
              cases h2
              exact ihI _ _ _ _ _ _ _ _ _ _ hI
        case obj fields =>
          rw [procNode_obj] at h
          cases hro : refOf fields with
          | some rs =>
              rw [hro] at h
              exact ihR _ _ _ _ _ _ _ _ _ _ h
          | none =>
              rw [hro] at h
              cases hF : procFields n cwd fields fm bp s vis d with
              | none => rw [hF] at h; exact Option.noConfusion h
              | some v =>
                  obtain ⟨fields2, s2, v2⟩ := v
                  rw [hF] at h
                  have h2 : some (Json.obj fields2, s2, v2) =
                      some (j, s', vis') := h
                  cases h2
                  exact ihF _ _ _ _ _ _ _ _ _ _ hF
        all_goals
          rw [procNode_scalar n _ _ _ _ _ _ _ (by simp [Json.isObjectLike])] at h
        all_goals
          (cases h; intro k v hv hk; exact hk)
      · intro cwd items fm bp s vis d j s' vis' h
        cases items with
        | nil =>
            rw [procItems_nil] at h
            cases h; intro k v hv hk; exact hk
        | cons hd tl =>
            rw [procItems_cons] at h
            cases hH : procNode n cwd hd fm bp s vis (d + 1) with
            | none => rw [hH] at h; exact Option.noConfusion h
            | some v =>
                obtain ⟨hd2, s2, v2⟩ := v
                rw [hH] at h
                dsimp only at h
                cases hT : procItems n cwd tl fm bp s2 v2 d with
                | none => rw [hT] at h; exact Option.noConfusion h
                | some w =>
                    obtain ⟨tl2, s3, v3⟩ := w
                    rw [hT] at h
                    have h2 : some (JsonList.cons hd2 tl2, s3, v3) =
                        some (j, s', vis') := h
                    cases h2
                    intro k v hv hk
                    exact ihI _ _ _ _ _ _ _ _ _ _ hT k v hv
                      (ihN _ _ _ _ _ _ _ _ _ _ hH k v hv hk)
      · intro cwd fields fm bp s vis d j s' vis' h
        cases fields with
        | nil =>
            rw [procFields_nil] at h
            cases h; intro k v hv hk; exact hk
        | cons ky vv tl =>
            rw [procFields_cons] at h
            cases hH : procNode n cwd vv fm bp s vis (d + 1) with
            | none => rw [hH] at h; exact Option.noConfusion h
            | some w =>
                obtain ⟨v2, s2, vis2⟩ := w
                rw [hH] at h
                dsimp only at h
                cases hT : procFields n cwd tl fm bp s2 vis2 d with
                | none => rw [hT] at h; exact Option.noConfusion h
                | some w2 =>
                    obtain ⟨tl2, s3, vis3⟩ := w2
                    rw [hT] at h
                    have h2 : some (JsonFields.cons ky v2 tl2, s3, vis3) =
                        some (j, s', vis') := h
                    cases h2
                    intro k v hv hk
                    exact ihF _ _ _ _ _ _ _ _ _ _ hT k v hv
                      (ihN _ _ _ _ _ _ _ _ _ _ hH k v hv hk)
      · intro cwd ref fm bp s vis d j s' vis' h
        cases h1 : jsStartsWith ref (st "#") with
        | true =>
            rw [resolveRef_internal n _ _ _ _ _ _ _ h1] at h
            cases h; intro k v hv hk; exact hk
        | false =>
            cases h2 : memoOf s ref with
            | some ir =>
                rw [resolveRef_memo n _ _ _ _ _ _ _ _ h1 h2] at h
                cases h; intro k v hv hk; exact hk
            | none =>
                cases h3 : vis.contains ref with
                | true =>
                    rw [resolveRef_cycle n _ _ _ _ _ _ _ h1 h2 h3] at h
                    cases hcn : extractComponentName ref with
                    | some nm =>
                        rw [hcn] at h
                        rcases eq_or_ne nm [] with hnm | hnm
                        · subst hnm
                          simp only [ne_eq, not_true_eq_false, if_false] at h
                          cases h; intro k v hv hk; exact hk
                        · simp only [ne_eq, hnm, not_false_eq_true, if_true] at h
                          cases h; intro k v hv hk; exact hk
                    | none =>
                        rw [hcn] at h
                        cases h; intro k v hv hk; exact hk
                | false =>
                    cases h4 : lookupRef cwd fm bp ref with
                    | none =>
                        rw [resolveRef_miss n _ _ _ _ _ _ _ h1 h2 h3 h4] at h
                        cases hcn : extractComponentName ref with
                        | some nm =>
                            rw [hcn] at h
                            rcases eq_or_ne nm [] with hnm | hnm
                            · subst hnm
                              simp only [ne_eq, not_true_eq_false, if_false] at h
                              cases h; intro k v hv hk; exact hk
                            · simp only [ne_eq, hnm, not_false_eq_true,
                                if_true] at h
                              cases h; intro k v hv hk; exact hk
                        | none =>
                            rw [hcn] at h
                            cases h; intro k v hv hk; exact hk
                    | some fileRef =>
                        rw [resolveRef_hit n _ _ _ _ _ _ _ _ h1 h2 h3 h4] at h
                        cases hP : procNode n cwd fileRef.content fm
                            (pathDirname fileRef.absolutePath) s
                            (vis ++ [ref]) (d + 1) with
                        | none => rw [hP] at h; exact Option.noConfusion h
                        | some w =>
                            obtain ⟨rc, s3, vv2⟩ := w
                            rw [hP] at h
                            dsimp only at h
                            cases hcn : extractComponentName ref with
                            | some nm =>
                                rw [hcn] at h
                                rcases eq_or_ne nm [] with hnm | hnm
                                · subst hnm
                                  simp only [ne_eq, not_true_eq_false,
                                    if_false] at h
                                  cases h; intro k v hv hk
                                  exact ihN _ _ _ _ _ _ _ _ _ _ hP k v hv hk
                                · simp only [ne_eq, hnm, not_false_eq_true,
                                    if_true] at h
                                  cases h; intro k v hv hk
                                  have h5 : alGet s3.refMap k = some v :=
                                    ihN _ _ _ _ _ _ _ _ _ _ hP k v hv hk
                                  rcases eq_or_ne ref k with hrk | hrk
                                  · subst hrk
                                    simp only [memoOf, hk] at h2
                                    rw [if_pos hv] at h2
                                    exact Option.noConfusion h2
                                  · simp only [alGet_alSet, if_neg hrk]
                                    exact h5
                            | none =>
                                rw [hcn] at h
                                cases h; intro k v hv hk
                                exact ihN _ _ _ _ _ _ _ _ _ _ hP k v hv hk

/-! ## Claim C3 -/

/-- C3 counterexample: an input with two distinct nodes holding the
identical external pointer `./.yml` (unresolvable, no derivable name):
the merged output does not rewrite both to the same internal pointer -
one keeps the external pointer, the other becomes the circular
placeholder - and the schema collection has no entry for the target. -/
theorem c3_identical_pointers_diverge :
    mergeCoreF 30 (st "/cwd") dedupNamelessFiles =
      some (dedupNamelessOut,
            [Warning.unresolved (st "./.yml"), Warning.circular (st "./.yml")])
    ∧ getPropD dedupNamelessOut (st "a") ≠ getPropD dedupNamelessOut (st "b")
    ∧ entriesOf (getPropD (getPropD dedupNamelessOut (st "components"))
        (st "schemas")) = [] := by
  refine ⟨by decide, by decide, by decide⟩

/-- C3 amended: once a truthy entry for an external reference string is
in the RefMap it is never overwritten during the rest of the resolution,
and a later occurrence of that exact string resolves to exactly that
internal pointer; two distinct nodes holding an identical external
pointer are rewritten to one shared internal pointer with exactly one
schema entry for the target provided the pointer resolves to a loaded
document and has a derivable component name (shown on the spec's
`./x.yaml` example); without those conditions the occurrences can
diverge (see the counterexample). -/
theorem c3_refmap_dedup :
    (∀ (fuel : Nat) (cwd : Str) (node : Json) (fm : FileMap) (bp : Str)
        (s : RState) (vis : List Str) (d : Nat) j s' vis',
        procNode fuel cwd node fm bp s vis d = some (j, s', vis') →
        ∀ k v, v ≠ [] → alGet s.refMap k = some v → alGet s'.refMap k = some v)
    ∧ (∀ (n : Nat) (cwd ref : Str) (fm : FileMap) (bp : Str) (s : RState)
        (vis : List Str) (d : Nat) (ir : Str),
        jsStartsWith ref (st "#") = false →
        alGet s.refMap ref = some ir → ir ≠ [] →
        resolveRef (n + 1) cwd ref fm bp s vis d =
          some (refNode ir, s, vis))
    ∧ mergeCoreF 30 (st "/cwd") dedupFiles = some (dedupOut, [])
    ∧ (entriesOf (getPropD (getPropD dedupOut (st "components"))
        (st "schemas"))).map Prod.fst = [st "x"]
    ∧ getPropD dedupOut (st "a") = refNode (st "#/components/schemas/x")
    ∧ getPropD dedupOut (st "b") = refNode (st "#/components/schemas/x") := by
  refine ⟨?_, ?_, by decide, by decide, by decide, by decide⟩
  · intro fuel cwd node fm bp s vis d j s' vis' h
    exact (refMap_preserved fuel).1 _ _ _ _ _ _ _ _ _ _ h
  · intro n cwd ref fm bp s vis d ir h1 h2 h3
    refine resolveRef_memo n cwd ref fm bp s vis d ir h1 ?_
    simp [memoOf, h2, h3]

/-- Witness for `c3_refmap_dedup`: the memoized translation applied at a
concrete state. -/
theorem c3_refmap_dedup_witness :
    resolveRef 4 (st "/c") (st "./m.yaml") [] (st "/p")
      ⟨emptyRegistry, [(st "./m.yaml", st "#/components/schemas/m")], []⟩
      [] 0 =
    some (refNode (st "#/components/schemas/m"),
          ⟨emptyRegistry, [(st "./m.yaml", st "#/components/schemas/m")], []⟩,
          []) :=
  c3_refmap_dedup.2.1 3 (st "/c") (st "./m.yaml") [] (st "/p")
    ⟨emptyRegistry, [(st "./m.yaml", st "#/components/schemas/m")], []⟩
    [] 0 (st "#/components/schemas/m") (by decide) (by decide) (by decide)

/-! ## Claim C1 (counterexample) -/

/-- C1 counterexample: a successful merge whose output holds two
external pointers: `./.yaml` (unresolvable, nameless, kept by the
fallback) and `./Other.yaml` (inside a pre-registered component file
that resolution never touched - a pointer with a derivable name, so even
the nameless exception does not cover it).  A second scenario avoids
`/components/` paths entirely and still leaks: a `$ref` key holding an
object is walked structurally, the inner pointer resolves to a string
scalar, and the output fabricates a reference node whose pointer
(`hello`) is external with a derivable name. -/
theorem c1_external_pointers_survive :
    mergeCoreF 30 (st "/cwd") namelessRefFiles =
      some (namelessRefOut, [Warning.unresolved (st "./.yaml")])
    ∧ noExternalPtrs namelessRefOut = false
    ∧ refsInternalOrNameless namelessRefOut = false
    ∧ getPropD namelessRefOut (st "a") = refNode (st "./.yaml")
    ∧ getPropD (getPropD (getPropD (getPropD namelessRefOut
        (st "components")) (st "schemas")) (st "W")) (st "inner") =
        refNode (st "./Other.yaml")
    ∧ mergeCoreF 30 (st "/cwd") fabricatedRefFiles =
        some (fabricatedRefOut, [])
    ∧ (fabricatedRefFiles.all (fun e =>
        ! jsIncludes e.1 (st "/components/"))) = true
    ∧ refsInternalOrNameless fabricatedRefOut = false
    ∧ getPropD fabricatedRefOut (st "$ref") = Json.str (st "hello") := by
  refine ⟨by decide, by decide, by decide, by decide, by decide, by decide,
    by decide, by decide, by decide⟩

/-! ## Claim C7 -/

/-- C7 counterexample: an invalid component name (`\x7bid\x7d`) sitting in
the main document's own `components.schemas` passes through the
normalizer untouched - only registry-derived names are sanitized - so
the output's component collections can contain names with characters
outside letters, digits, hyphen, period, underscore. -/
theorem c7_tree_name_not_sanitized :
    mergeCoreF 30 (st "/cwd") invalidTreeNameFiles =
      some (invalidTreeNameOut, [])
    ∧ (entriesOf (getPropD (getPropD invalidTreeNameOut (st "components"))
        (st "schemas"))).map Prod.fst = [st "\x7bid\x7d"]
    ∧ hasInvalidChar (st "\x7bid\x7d") = true := by
  refine ⟨by decide, by decide, by decide⟩

/-- C7 amended: sanitization replaces every disallowed character with an
underscore, so a sanitized name never holds an invalid character; a
component derived from the path segment `\x7bid\x7d.yaml` is registered
under `_id_` and the pointer that targeted it is rewritten to the
sanitized name - but only names coming from the component registry are
sanitized; a name already inside the main document's own components
section is left as is (see the counterexample). -/
theorem c7_registry_names_sanitized :
    (∀ s : Str, hasInvalidChar (sanitizeName s) = false)
    ∧ mergeCoreF 30 (st "/cwd") braceNameFiles = some (braceNameOut, [])
    ∧ (entriesOf (getPropD (getPropD braceNameOut (st "components"))
        (st "schemas"))).all (fun e => ! hasInvalidChar e.1) = true
    ∧ getPropD braceNameOut (st "p") =
        refNode (st "#/components/schemas/_id_") := by
  refine ⟨?_, by decide, by decide, by decide⟩
  intro s
  induction s with
  | nil => decide
  | cons c rest ih =>
      simp only [sanitizeName, hasInvalidChar, List.map_cons, List.any_cons] at ih ⊢
      rw [ih]
      by_cases hc : validNameChar c = true
      · simp [hc]
      · simp only [Bool.not_eq_true] at hc
        simp only [hc, if_false, Bool.false_eq_true]
        decide

/-! ## Claim C9 (counterexample) -/

/-- C10: a mapping is handed to reference resolution precisely when its
`$ref` key holds a non-empty string - in that case its sibling keys do
not reach the output (an internal pointer comes back as the pure
reference node) - while a mapping whose `$ref` is the empty string or a
non-string is walked structurally with the `$ref` key preserved.  The
general parts state the dispatch; the concrete parts exhibit the sibling
discarding and the structural walk. -/
theorem c10_ref_detection :
    (∀ (n : Nat) (cwd : Str) (fields : JsonFields) (fm : FileMap) (bp : Str)
        (s : RState) (vis : List Str) (d : Nat) (r : Str),
        fGet fields (st "$ref") = some (.str r) → r ≠ [] →
        procNode (n + 1) cwd (.obj fields) fm bp s vis d =
          resolveRef n cwd r fm bp s vis d)
    ∧ (∀ (n : Nat) (cwd : Str) (fields : JsonFields) (fm : FileMap) (bp : Str)
        (s : RState) (vis : List Str) (d : Nat),
        refOf fields = none →
        procNode (n + 1) cwd (.obj fields) fm bp s vis d =
          match procFields n cwd fields fm bp s vis d with
          | some (fields2, s2, v2) => some (.obj fields2, s2, v2)
          | none => none)
    ∧ procNode 6 (st "/c")
        (jobj [(st "$ref", .str (st "#/x")), (st "extra", .num 5)])
        [] (st "/p") ⟨emptyRegistry, [], []⟩ [] 0 =
        some (refNode (st "#/x"), ⟨emptyRegistry, [], []⟩, [])
    ∧ procNode 6 (st "/c")
        (jobj [(st "$ref", .str []), (st "extra", .num 5)])
        [] (st "/p") ⟨emptyRegistry, [], []⟩ [] 0 =
        some (jobj [(st "$ref", .str []), (st "extra", .num 5)],
              ⟨emptyRegistry, [], []⟩, []) := by
  refine ⟨?_, ?_, by decide, by decide⟩
  · intro n cwd fields fm bp s vis d r hg hr
    rw [procNode_obj]
    have hro : refOf fields = some r := by
      simp [refOf, hg, hr]
    rw [hro]
  · intro n cwd fields fm bp s vis d hro
    rw [procNode_obj, hro]

/-- Witness for `c10_ref_detection`: the dispatch applied to the
concrete mapping `{ $ref: "#/x", extra: 5 }`. -/
theorem c10_ref_detection_witness :
    procNode 7 (st "/c")
      (jobj [(st "$ref", .str (st "#/x")), (st "extra", .num 5)])
      [] (st "/p") ⟨emptyRegistry, [], []⟩ [] 0 =
    resolveRef 6 (st "/c") (st "#/x") [] (st "/p")
      ⟨emptyRegistry, [], []⟩ [] 0 :=
  c10_ref_detection.1 6 (st "/c")
    (fOfList [(st "$ref", .str (st "#/x")), (st "extra", .num 5)])
    [] (st "/p") ⟨emptyRegistry, [], []⟩ [] 0 (st "#/x")
    (by decide) (by decide)

/-! ## Claim C8 (counterexample) -/

/-- C8 counterexample: for the pointer `x/a.b.yaml` - no component
directory segment - the claim's fallback rule gives the base name
without its extension, `a.b`; the implementation instead takes the part
of the base name before its first dot and returns `a`. -/
theorem c8_basename_first_dot :
    extractComponentName (st "x/a.b.yaml") = some (st "a")
    ∧ some (st "a") ≠ some (st "a.b") := by
  refine ⟨by decide, by decide⟩

/-! ## Claim C8 (amended) -/

/-- `jsSplitChar` always yields at least one chunk. -/
theorem jsSplitChar_ne_nil (s : Str) (c : Char) : jsSplitChar s c ≠ [] := by
  cases s with
  | nil => simp [jsSplitChar]
  | cons a rest =>
      simp only [jsSplitChar]
      by_cases h : a = c
      · simp [h]
      · simp only [h, if_false]
        cases jsSplitChar rest c <;> simp

/-- A successful regex match implies the literal occurs in the string. -/
theorem matchCompSchemas_includes (r nm : Str)
    (h : matchCompSchemas r = some nm) :
    jsIncludes r compSchemasLit = true := by
  induction r with
  | nil => simp [matchCompSchemas] at h
  | cons a rest ih =>
      rw [matchCompSchemas] at h
      rw [jsIncludes]
      by_cases hp : compSchemasLit.isPrefixOf (a :: rest) = true
      · simp [hp]
      · simp only [Bool.not_eq_true] at hp
        rw [hp] at h
        simp only [Bool.false_eq_true, if_false] at h
        rw [hp]
        simp only [Bool.false_eq_true, if_false]
        exact ih h

/-- The capture of a successful regex match is non-empty and free of `/`
and `.`. -/
theorem matchCompSchemas_shape (r nm : Str)
    (h : matchCompSchemas r = some nm) :
    nm ≠ [] ∧ ∀ c ∈ nm, (c = '/' → False) ∧ (c = '.' → False) := by
  induction r with
  | nil => simp [matchCompSchemas] at h
  | cons a rest ih =>
      rw [matchCompSchemas] at h
      by_cases hp : compSchemasLit.isPrefixOf (a :: rest) = true
      · rw [hp] at h
        simp only [if_true] at h
        set run := ((a :: rest).drop compSchemasLit.length).takeWhile
          (fun c => c != '/' && c != '.') with hrun
        by_cases hr : run ≠ []
        · rw [if_pos hr] at h
          injection h with h2
          subst h2
          refine ⟨hr, ?_⟩
          intro c hc
          have := List.mem_takeWhile_imp (hrun ▸ hc)
          simp only [bne_iff_ne, ne_eq, Bool.and_eq_true, decide_eq_true_eq] at this
          exact ⟨fun he => this.1 he, fun he => this.2 he⟩
        · rw [if_neg hr] at h
          exact ih h
      · simp only [Bool.not_eq_true] at hp
        rw [hp] at h
        simp only [Bool.false_eq_true, if_false] at h
        exact ih h

/-- C8 amended: component-name derivation is the pure function of the
pointer string with this precedence: the capture of the first
`/components/schemas/` occurrence followed by a non-empty run of
non-slash non-dot characters wins (its result never ends at a dot - any
trailing extension and all later dotted parts are excluded); otherwise
the portion of the pointer's base name before its FIRST dot (not merely
the trailing extension stripped); derivation fails exactly when neither
rule yields a non-empty string.  Part one equates the implementation
with this amended rule; part two proves the directory rule on symbolic
well-formed names; part three is the failure characterization. -/
theorem c8_naming_rule :
    (∀ r, extractComponentName r = specComponentName r)
    ∧ (∀ nm : Str, nm ≠ [] → (∀ c ∈ nm, c ≠ '/' ∧ c ≠ '.') →
        extractComponentName (st "/components/schemas/" ++ nm) = some nm)
    ∧ (∀ r, extractComponentName r = none ↔
        (matchCompSchemas r = none ∧ specBasePart r = [])) := by
  have hmain : ∀ r, extractComponentName r = specComponentName r := by
    intro r
    rw [extractComponentName, specComponentName]
    cases hm : matchCompSchemas r with
    | some nm =>
        rw [matchCompSchemas_includes r nm hm]
        simp [hm]
    | none =>
        have hbase :
            (if pathBasename r ≠ [] then
              match jsSplitChar (pathBasename r) '.' with
              | [] => none
              | p0 :: _ => if p0 ≠ [] then some p0 else none
            else none) =
            (if specBasePart r = [] then none
             else some (specBasePart r)) := by
          rcases eq_or_ne (pathBasename r) [] with hb | hb
          · rw [hb]
            simp [specBasePart, hb, jsSplitChar]
          · rw [if_pos hb]
            cases hs : jsSplitChar (pathBasename r) '.' with
            | nil => exact absurd hs (jsSplitChar_ne_nil _ _)
            | cons p0 ps =>
                rw [specBasePart, hs]
                rcases eq_or_ne p0 [] with hp | hp
                · simp [hp]
                · simp [hp]
        cases hinc : jsIncludes r compSchemasLit with
        | true => exact hbase
        | false => exact hbase
  refine ⟨hmain, ?_, ?_⟩
  · intro nm hnm hc
    have hpre : compSchemasLit.isPrefixOf (compSchemasLit ++ nm) = true := by
      rw [List.isPrefixOf_iff_prefix]; exact List.prefix_append _ _
    have hdrop : (compSchemasLit ++ nm).drop compSchemasLit.length = nm :=
      List.drop_left _ _
    have htake : nm.takeWhile (fun c => c != '/' && c != '.') = nm := by
      refine List.takeWhile_eq_self_iff.mpr ?_
      intro a ha
      have := hc a ha
      simp only [bne_iff_ne, ne_eq, Bool.and_eq_true, decide_eq_true_eq]
      exact ⟨this.1, this.2⟩
    have hlit : st "/components/schemas/" = compSchemasLit := rfl
    rw [hlit]
    have hcons : compSchemasLit ++ nm =
        '/' :: (st "components/schemas/" ++ nm) := rfl
    have hmatch : matchCompSchemas (compSchemasLit ++ nm) = some nm := by
      rw [hcons, matchCompSchemas, ← hcons, hpre]
      simp only [if_true]
      rw [hdrop, htake, if_pos hnm]
    rw [hmain]
    rw [specComponentName, hmatch]
  · intro r
    rw [hmain, specComponentName]
    cases hm : matchCompSchemas r with
    | some nm => simp
    | none =>
        rcases eq_or_ne (specBasePart r) [] with hb | hb
        · simp [hb]
        · simp [hb]

/-- Witness for `c8_naming_rule`: the directory rule applied to the
concrete name `User`. -/
theorem c8_naming_rule_witness :
    extractComponentName (st "/components/schemas/" ++ st "User") =
      some (st "User") :=
  c8_naming_rule.2.1 (st "User") (by decide) (by decide)

/-- A successful association-list read is a member. -/
theorem alGet_mem {α : Type} (l : List (Str × α)) (k : Str) (v : α)
    (h : alGet l k = some v) : (k, v) ∈ l := by
  induction l with
  | nil => simp [alGet] at h
  | cons e rest ih =>
      obtain ⟨k', v'⟩ := e
      rw [alGet] at h
      by_cases hk : k' = k
      · rw [if_pos hk] at h
        injection h with h2
        subst hk; subst h2
        exact List.mem_cons_self _ _
      · rw [if_neg hk] at h
        exact List.mem_cons_of_mem _ (ih h)

/-- `List.all` is preserved by a write of a satisfying entry. -/
theorem all_alSet {α : Type} (l : List (Str × α)) (p : Str × α → Bool)
    (k : Str) (v : α) (hl : l.all p = true) (hv : p (k, v) = true) :
    (alSet l k v).all p = true := by
  induction l with
  | nil => simp [alSet, hv]
  | cons e rest ih =>
      obtain ⟨k', v'⟩ := e
      simp only [List.all_cons, Bool.and_eq_true] at hl
      rw [alSet]
      by_cases h : k' = k
      · rw [if_pos h]
        simp only [List.all_cons, Bool.and_eq_true]
        exact ⟨h ▸ hv, hl.2⟩
      · rw [if_neg h]
        simp only [List.all_cons, Bool.and_eq_true]
        exact ⟨hl.1, ih hl.2⟩

/-- `List.all` is preserved by deletion. -/
theorem all_alDelete {α : Type} (l : List (Str × α)) (p : Str × α → Bool)
    (k : Str) (hl : l.all p = true) : (alDelete l k).all p = true := by
  induction l with
  | nil => simp [alDelete]
  | cons e rest ih =>
      obtain ⟨k', v'⟩ := e
      simp only [List.all_cons, Bool.and_eq_true] at hl
      rw [alDelete]
      by_cases h : k' = k
      · rw [if_pos h]; exact hl.2
      · rw [if_neg h]
        simp only [List.all_cons, Bool.and_eq_true]
        exact ⟨hl.1, ih hl.2⟩

/-- Whatever the fallback chain matched, the result is a file-map
entry. -/
theorem lookupRef_mem (cwd : Str) (fm : FileMap) (bp ref : Str)
    (f : FileRef) (h : lookupRef cwd fm bp ref = some f) :
    ∃ k, alGet fm k = some f := by
  rw [lookupRef] at h
  cases h1 : alGet fm ref with
  | some f1 => rw [h1] at h; cases h; exact ⟨ref, h1⟩
  | none =>
      rw [h1] at h
      cases h2 : alGet fm (pathResolve2 cwd bp ref) with
      | some f2 => rw [h2] at h; cases h; exact ⟨_, h2⟩
      | none =>
          rw [h2] at h
          cases h3 : (if ¬ jsStartsWith ref (st "./") = true then
              alGet fm (st "./" ++ ref) else none) with
          | some f3 =>
              rw [h3] at h; cases h
              rcases eq_or_ne (jsStartsWith ref (st "./")) true with hb | hb
              · simp [hb] at h3
              · simp only [Bool.not_eq_true] at hb
                simp only [hb, Bool.false_eq_true, not_false_eq_true,
                  if_true] at h3
                exact ⟨_, h3⟩
          | none =>
              rw [h3] at h
              cases h4 : (if jsStartsWith ref (st "./") = true then
                  alGet fm (jsSubstringFrom ref 2) else none) with
              | some f4 =>
                  rw [h4] at h; cases h
                  rcases eq_or_ne (jsStartsWith ref (st "./")) true with hb | hb
                  · simp only [hb, if_true] at h4
                    exact ⟨_, h4⟩
                  · simp [hb] at h4
              | none =>
                  rw [h4] at h
                  cases hb : (jsEndsWith ref (st ".yaml")
                      || jsEndsWith ref (st ".yml")) with
                  | false => rw [hb] at h; simp at h
                  | true =>
                      rw [hb] at h
                      simp only [if_true] at h
                      cases h5 : alGet fm
                          (jsSubstring ref 0 (jsLastIndexOfChar ref '.')) with
                      | some f5 => rw [h5] at h; cases h; exact ⟨_, h5⟩
                      | none =>
                          rw [h5] at h
                          exact ⟨_, h⟩

/-- Mutual structural induction over the three JSON types, packaged
from the primitive recursors. -/
theorem json_mutual_ind (P : Json → Prop) (PL : JsonList → Prop)
    (PF : JsonFields → Prop)
    (hnull : P .null) (hbool : ∀ b, P (.bool b)) (hnum : ∀ n, P (.num n))
    (hstr : ∀ s, P (.str s))
    (harr : ∀ items, PL items → P (.arr items))
    (hobj : ∀ fields, PF fields → P (.obj fields))
    (hlnil : PL .nil)
    (hlcons : ∀ hd tl, P hd → PL tl → PL (.cons hd tl))
    (hfnil : PF .nil)
    (hfcons : ∀ k v tl, P v → PF tl → PF (.cons k v tl)) :
    (∀ j, P j) ∧ (∀ l, PL l) ∧ (∀ f, PF f) :=
  ⟨fun j => Json.rec hnull hbool hnum hstr harr hobj hlnil hlcons hfnil hfcons j,
   fun l => JsonList.rec hnull hbool hnum hstr harr hobj hlnil hlcons hfnil
     hfcons l,
   fun f => JsonFields.rec hnull hbool hnum hstr harr hobj hlnil hlcons hfnil
     hfcons f⟩

/-- Induction along the spine of an object's field list. -/
theorem fields_spine_ind (PF : JsonFields → Prop) (hnil : PF .nil)
    (hcons : ∀ k v tl, PF tl → PF (.cons k v tl)) : ∀ f, PF f :=
  (json_mutual_ind (fun _ => True) (fun _ => True) PF trivial
    (fun _ => trivial) (fun _ => trivial) (fun _ => trivial)
    (fun _ _ => trivial) (fun _ _ => trivial) trivial
    (fun _ _ _ _ => trivial) hnil (fun k v tl _ h => hcons k v tl h)).2.2

/-- Induction along the spine of an array's element list. -/
theorem list_spine_ind (PL : JsonList → Prop) (hnil : PL .nil)
    (hcons : ∀ hd tl, PL tl → PL (.cons hd tl)) : ∀ l, PL l :=
  (json_mutual_ind (fun _ => True) PL (fun _ => True) trivial
    (fun _ => trivial) (fun _ => trivial) (fun _ => trivial)
    (fun _ _ => trivial) (fun _ _ => trivial) hnil
    (fun hd tl _ h => hcons hd tl h) trivial
    (fun _ _ _ _ _ => trivial)).2.1

/-- In a well-formed mapping, a present `$ref` key holds a non-empty
string. -/
theorem wfFields_refGet (fields : JsonFields) :
    wfFields fields = true →
    ∀ v, fGet fields (st "$ref") = some v → ∃ r, v = Json.str r ∧ r ≠ [] := by
  induction fields using fields_spine_ind with
  | hnil => intro hwf v h; simp [fGet] at h
  | hcons k w tl ih =>
      intro hwf v h
      simp only [wfFields, Bool.and_eq_true] at hwf
      obtain ⟨⟨hcond, hw⟩, htl⟩ := hwf
      rw [fGet] at h
      by_cases hk : k = st "$ref"
      · rw [if_pos hk] at h
        injection h with h2
        subst h2
        cases w <;> simp [wfKV, hk] at hcond
        rename_i r
        exact ⟨r, rfl, hcond⟩
      · rw [if_neg hk] at h
        exact ih htl v h

/-- With no truthy `$ref` (as `refOf` reports) a well-formed mapping has
no `$ref` key at all. -/
theorem wf_no_refKey (fields : JsonFields) (hwf : wfFields fields = true)
    (hro : refOf fields = none) : fGet fields (st "$ref") = none := by
  cases hg : fGet fields (st "$ref") with
  | none => rfl
  | some v =>
      obtain ⟨r, rfl, hr⟩ := wfFields_refGet fields hwf v hg
      rw [refOf, hg] at hro
      simp [hr] at hro

/-- A synthesized internal pointer starts with `#`. -/
theorem internal_ptr_starts (nm : Str) :
    jsStartsWith (st "#/components/schemas/" ++ nm) (st "#") = true := rfl

/-- A synthesized internal pointer is non-empty. -/
theorem internal_ptr_ne (nm : Str) :
    st "#/components/schemas/" ++ nm ≠ [] := by
  have h : st "#/components/schemas/" ++ nm =
      '#' :: (st "/components/schemas/" ++ nm) := rfl
  rw [h]; simp

/-- A pure reference node with a conforming pointer is good. -/
theorem goodJson_refNode (r : Str) (h1 : r ≠ [])
    (h2 : ptrIntOrNameless r = true) : goodJson (refNode r) = true := by
  simp [refNode, goodJson, goodFields, goodKV, h1, h2]

/-- The circular placeholder is good (its strings sit under non-`$ref`
keys). -/
theorem goodJson_circularPlaceholder (ref : Str) :
    goodJson (circularPlaceholder ref) = true := by
  simp only [circularPlaceholder, jobj, fOfList, goodJson, goodFields,
    Bool.and_eq_true]
  refine ⟨⟨by decide, trivial⟩, ⟨?_, trivial⟩, trivial⟩
  rw [goodKV, if_neg (by decide)]

/-- The unresolved stub is good. -/
theorem goodJson_unresolvedPlaceholder (ref : Str) :
    goodJson (unresolvedPlaceholder ref) = true := by
  simp only [unresolvedPlaceholder, jobj, fOfList, goodJson, goodFields,
    Bool.and_eq_true]
  refine ⟨⟨by decide, trivial⟩, ⟨?_, trivial⟩, ⟨by decide, ?_⟩, trivial⟩
  · rw [goodKV, if_neg (by decide)]
  · simp [goodJson, goodFields]

/-- A flattening of `rstateOkC1`. -/
theorem rstateOkC1_iff (s : RState) : rstateOkC1 s = true ↔
    (s.registry.schemas.all (fun e => goodJson e.2) = true
     ∧ s.refMap.all (fun e => jsStartsWith e.2 (st "#")) = true
     ∧ s.registry.responses = [] ∧ s.registry.parameters = []
     ∧ s.registry.examples = [] ∧ s.registry.requestBodies = []
     ∧ s.registry.headers = [] ∧ s.registry.securitySchemes = []
     ∧ s.registry.links = [] ∧ s.registry.callbacks = []) := by
  simp only [rstateOkC1, Bool.and_eq_true, and_assoc, List.isEmpty_iff]

/-- `addWarn` leaves the invariant untouched. -/
theorem rstateOkC1_addWarn (s : RState) (w : Warning) :
    rstateOkC1 (addWarn s w) = rstateOkC1 s := rfl

/-- A truthy `refOf` capture is non-empty. -/
theorem refOf_some_ne (fields : JsonFields) (r : Str)
    (h : refOf fields = some r) : r ≠ [] := by
  rw [refOf] at h
  cases hg : fGet fields (st "$ref") with
  | none => rw [hg] at h; exact Option.noConfusion h
  | some v =>
      rw [hg] at h
      cases v <;> try exact Option.noConfusion h
      case str r' =>
          rcases eq_or_ne r' [] with hr | hr
          · subst hr; simp at h
          · simp only [ne_eq, hr, not_false_eq_true, if_true] at h
            injection h with h2
            subst h2; exact hr

/-- C1's central invariant: with well-formed inputs, everything the
resolver returns and registers has only internal-or-nameless pointers,
and `$ref` keys only ever hold truthy strings.  Proved jointly for the
four mutually recursive functions by induction on the fuel. -/
theorem resolution_good (fuel : Nat) :
    (∀ cwd node fm bp s vis d j s' vis',
        procNode fuel cwd node fm bp s vis d = some (j, s', vis') →
        wfJson node = true → fmOk fm = true → rstateOkC1 s = true →
        goodJson j = true ∧ rstateOkC1 s' = true)
    ∧ (∀ cwd items fm bp s vis d j s' vis',
        procItems fuel cwd items fm bp s vis d = some (j, s', vis') →
        wfList items = true → fmOk fm = true → rstateOkC1 s = true →
        goodList j = true ∧ rstateOkC1 s' = true)
    ∧ (∀ cwd fields fm bp s vis d j s' vis',
        procFields fuel cwd fields fm bp s vis d = some (j, s', vis') →
        wfFields fields = true → fGet fields (st "$ref") = none →
        fmOk fm = true → rstateOkC1 s = true →
        goodFields j = true ∧ rstateOkC1 s' = true)
    ∧ (∀ cwd ref fm bp s vis d j s' vis',
        resolveRef fuel cwd ref fm bp s vis d = some (j, s', vis') →
        ref ≠ [] → fmOk fm = true → rstateOkC1 s = true →
        goodJson j = true ∧ rstateOkC1 s' = true) := by
  induction fuel with
  | zero =>
      refine ⟨?_, ?_, ?_, ?_⟩ <;> intro cwd x fm bp s vis d j s' vis' h <;>
        simp [procNode, procItems, procFields, resolveRef] at h
  | succ n ih =>
      obtain ⟨ihN, ihI, ihF, ihR⟩ := ih
      refine ⟨?_, ?_, ?_, ?_⟩
      · intro cwd node fm bp s vis d j s' vis' h hw hfm hs
        cases node
        case arr items =>
          rw [procNode_arr] at h
          cases hI : procItems n cwd items fm bp s vis d with
          | none => rw [hI] at h; exact Option.noConfusion h
          | some v =>
              obtain ⟨items2, s2, v2⟩ := v
              rw [hI] at h
              have h2 : some (Json.arr items2, s2, v2) =
                  some (j, s', vis') := h
              cases h2
              simp only [wfJson] at hw
              have := ihI _ _ _ _ _ _ _ _ _ _ hI hw hfm hs
              simpa [goodJson] using this
        case obj fields =>
          rw [procNode_obj] at h
          simp only [wfJson] at hw
          cases hro : refOf fields with
          | some rs =>
              rw [hro] at h
              exact ihR _ _ _ _ _ _ _ _ _ _ h (refOf_some_ne fields rs hro)
                hfm hs
          | none =>
              rw [hro] at h
              cases hF : procFields n cwd fields fm bp s vis d with
              | none => rw [hF] at h; exact Option.noConfusion h
              | some v =>
                  obtain ⟨fields2, s2, v2⟩ := v
                  rw [hF] at h
                  have h2 : some (Json.obj fields2, s2, v2) =
                      some (j, s', vis') := h
                  cases h2
                  have := ihF _ _ _ _ _ _ _ _ _ _ hF hw
                    (wf_no_refKey fields hw hro) hfm hs
                  simpa [goodJson] using this
        all_goals
          rw [procNode_scalar n _ _ _ _ _ _ _ (by simp [Json.isObjectLike])] at h
        all_goals
          (cases h; exact ⟨by simp [goodJson], hs⟩)
      · intro cwd items fm bp s vis d j s' vis' h hw hfm hs
        cases items with
        | nil =>
            rw [procItems_nil] at h
            cases h; exact ⟨by simp [goodList], hs⟩
        | cons hd tl =>
            rw [procItems_cons] at h
            simp only [wfList, Bool.and_eq_true] at hw
            cases hH : procNode n cwd hd fm bp s vis (d + 1) with
            | none => rw [hH] at h; exact Option.noConfusion h
            | some v =>
                obtain ⟨hd2, s2, v2⟩ := v
                rw [hH] at h
                dsimp only at h
                cases hT : procItems n cwd tl fm bp s2 v2 d with
                | none => rw [hT] at h; exact Option.noConfusion h
                | some w =>
                    obtain ⟨tl2, s3, v3⟩ := w
                    rw [hT] at h
                    have h2 : some (JsonList.cons hd2 tl2, s3, v3) =
                        some (j, s', vis') := h
                    cases h2
                    obtain ⟨g1, hs2⟩ := ihN _ _ _ _ _ _ _ _ _ _ hH hw.1 hfm hs
                    obtain ⟨g2, hs3⟩ := ihI _ _ _ _ _ _ _ _ _ _ hT hw.2 hfm hs2
                    exact ⟨by simp [goodList, g1, g2], hs3⟩
      · intro cwd fields fm bp s vis d j s' vis' h hw hnr hfm hs
        cases fields with
        | nil =>
            rw [procFields_nil] at h
            cases h; exact ⟨by simp [goodFields], hs⟩
        | cons ky vv tl =>
            rw [procFields_cons] at h
            simp only [wfFields, Bool.and_eq_true] at hw
            obtain ⟨⟨hcond, hwv⟩, hwtl⟩ := hw
            rw [fGet] at hnr
            by_cases hk : ky = st "$ref"
            · rw [if_pos hk] at hnr; exact Option.noConfusion hnr
            · rw [if_neg hk] at hnr
              cases hH : procNode n cwd vv fm bp s vis (d + 1) with
              | none => rw [hH] at h; exact Option.noConfusion h
              | some w =>
                  obtain ⟨v2, s2, vis2⟩ := w
                  rw [hH] at h
                  dsimp only at h
                  cases hT : procFields n cwd tl fm bp s2 vis2 d with
                  | none => rw [hT] at h; exact Option.noConfusion h
                  | some w2 =>
                      obtain ⟨tl2, s3, vis3⟩ := w2
                      rw [hT] at h
                      have h2 : some (JsonFields.cons ky v2 tl2, s3, vis3) =
                          some (j, s', vis') := h
                      cases h2
                      obtain ⟨g1, hs2⟩ := ihN _ _ _ _ _ _ _ _ _ _ hH hwv hfm hs
                      obtain ⟨g2, hs3⟩ :=
                        ihF _ _ _ _ _ _ _ _ _ _ hT hwtl hnr hfm hs2
                      refine ⟨?_, hs3⟩
                      simp only [goodFields, Bool.and_eq_true]
                      exact ⟨⟨by simp [goodKV, hk], g1⟩, g2⟩
      · intro cwd ref fm bp s vis d j s' vis' h href hfm hs
        cases h1 : jsStartsWith ref (st "#") with
        | true =>
            rw [resolveRef_internal n _ _ _ _ _ _ _ h1] at h
            cases h
            exact ⟨goodJson_refNode ref href
              (by simp [ptrIntOrNameless, h1]), hs⟩
        | false =>
            cases h2 : memoOf s ref with
            | some ir =>
                rw [resolveRef_memo n _ _ _ _ _ _ _ _ h1 h2] at h
                cases h
                have hget : alGet s.refMap ref = some ir ∧ ir ≠ [] := by
                  rw [memoOf] at h2
                  cases hm : alGet s.refMap ref with
                  | none => rw [hm] at h2; exact Option.noConfusion h2
                  | some ir' =>
                      rw [hm] at h2
                      rcases eq_or_ne ir' [] with hir | hir
                      · subst hir; simp at h2
                      · simp only [ne_eq, hir, not_false_eq_true,
                          if_true] at h2
                        injection h2 with h3
                        subst h3; exact ⟨rfl, hir⟩
                have hmem := alGet_mem _ _ _ hget.1
                have hall := ((rstateOkC1_iff s).mp hs).2.1
                rw [List.all_eq_true] at hall
                have hint := hall _ hmem
                exact ⟨goodJson_refNode ir hget.2
                  (by simp [ptrIntOrNameless, hint]), hs⟩
            | none =>
                cases h3 : vis.contains ref with
                | true =>
                    rw [resolveRef_cycle n _ _ _ _ _ _ _ h1 h2 h3] at h
                    cases hcn : extractComponentName ref with
                    | some nm =>
                        rw [hcn] at h
                        rcases eq_or_ne nm [] with hnm | hnm
                        · subst hnm
                          simp only [ne_eq, not_true_eq_false, if_false] at h
                          cases h
                          exact ⟨goodJson_circularPlaceholder ref,
                            by rw [rstateOkC1_addWarn]; exact hs⟩
                        · simp only [ne_eq, hnm, not_false_eq_true,
                            if_true] at h
                          cases h
                          refine ⟨goodJson_refNode _ (internal_ptr_ne nm)
                            (by simp [ptrIntOrNameless,
                              internal_ptr_starts]), ?_⟩
                          rw [rstateOkC1_addWarn]; exact hs
                    | none =>
                        rw [hcn] at h
                        cases h
                        exact ⟨goodJson_circularPlaceholder ref,
                          by rw [rstateOkC1_addWarn]; exact hs⟩
                | false =>
                    cases h4 : lookupRef cwd fm bp ref with
                    | none =>
                        rw [resolveRef_miss n _ _ _ _ _ _ _ h1 h2 h3 h4] at h
                        cases hcn : extractComponentName ref with
                        | some nm =>
                            rw [hcn] at h
                            rcases eq_or_ne nm [] with hnm | hnm
                            · subst hnm
                              simp only [ne_eq, not_true_eq_false,
                                if_false] at h
                              cases h
                              refine ⟨goodJson_refNode ref href ?_, ?_⟩
                              · simp [ptrIntOrNameless, optTruthy, hcn]
                              · rw [rstateOkC1_addWarn]; exact hs
                            · simp only [ne_eq, hnm, not_false_eq_true,
                                if_true] at h
                              cases h
                              refine ⟨goodJson_refNode _ (internal_ptr_ne nm)
                                (by simp [ptrIntOrNameless,
                                  internal_ptr_starts]), ?_⟩
                              rw [rstateOkC1_iff] at hs ⊢
                              obtain ⟨hsch, hrm, hrest⟩ := hs
                              refine ⟨?_, hrm, hrest⟩
                              exact all_alSet _ _ _ _ hsch
                                (goodJson_unresolvedPlaceholder ref)
                        | none =>
                            rw [hcn] at h
                            cases h
                            refine ⟨goodJson_refNode ref href ?_, ?_⟩
                            · simp [ptrIntOrNameless, optTruthy, hcn]
                            · rw [rstateOkC1_addWarn]; exact hs
                    | some fileRef =>
                        rw [resolveRef_hit n _ _ _ _ _ _ _ _ h1 h2 h3 h4] at h
                        cases hP : procNode n cwd fileRef.content fm
                            (pathDirname fileRef.absolutePath) s
                            (vis ++ [ref]) (d + 1) with
                        | none => rw [hP] at h; exact Option.noConfusion h
                        | some w =>
                            obtain ⟨rc, s3, vv2⟩ := w
                            rw [hP] at h
                            dsimp only at h
                            have hwfc : wfJson fileRef.content = true := by
                              obtain ⟨k, hk⟩ := lookupRef_mem _ _ _ _ _ h4
                              have hmem := alGet_mem _ _ _ hk
                              rw [fmOk, List.all_eq_true] at hfm
                              exact hfm _ hmem
                            obtain ⟨grc, hs3⟩ :=
                              ihN _ _ _ _ _ _ _ _ _ _ hP hwfc hfm hs
                            cases hcn : extractComponentName ref with
                            | some nm =>
                                rw [hcn] at h
                                rcases eq_or_ne nm [] with hnm | hnm
                                · subst hnm
                                  simp only [ne_eq, not_true_eq_false,
                                    if_false] at h
                                  cases h
                                  exact ⟨grc, hs3⟩
                                · simp only [ne_eq, hnm, not_false_eq_true,
                                    if_true] at h
                                  cases h
                                  refine ⟨goodJson_refNode _
                                    (internal_ptr_ne nm)
                                    (by simp [ptrIntOrNameless,
                                      internal_ptr_starts]), ?_⟩
                                  rw [rstateOkC1_iff] at hs3 ⊢
                                  obtain ⟨hsch, hrm, hrest⟩ := hs3
                                  refine ⟨?_, ?_, hrest⟩
                                  · exact all_alSet _ _ _ _ hsch grc
                                  · exact all_alSet _ _ _ _ hrm
                                      (internal_ptr_starts nm)
                            | none =>
                                rw [hcn] at h
                                cases h
                                exact ⟨grc, hs3⟩

/-- Outside a `/components/` path nothing is pre-registered. -/
theorem registerComponents_skip (filePath : Str) (schema : Json)
    (reg : ComponentRegistry)
    (h : jsIncludes filePath (st "/components/") = false) :
    registerComponents filePath schema reg = reg := by
  rw [registerComponents]
  by_cases ho : schema.isObjectLike = true
  · simp [ho, h]
  · simp only [Bool.not_eq_true] at ho
    simp [ho]

/-- With no `/components/` path among the inputs, loading builds an
empty registry. -/
theorem loadFiles_registry (cwd md : Str) (files : List (Str × Json))
    (h : ∀ e ∈ files, jsIncludes e.1 (st "/components/") = false) :
    (loadFiles cwd md files).2 = emptyRegistry := by
  rw [loadFiles]
  have main : ∀ (acc : FileMap × ComponentRegistry),
      (files.foldl (loadStep cwd md) acc).2 = acc.2 := by
    induction files with
    | nil => intro acc; rfl
    | cons e rest ih =>
        intro acc
        rw [List.foldl_cons]
        have he := h e (List.mem_cons_self _ _)
        have hstep : (loadStep cwd md acc e).2 = acc.2 := by
          simp [loadStep, registerComponents_skip _ _ _ he]
        rw [ih (fun x hx => h x (List.mem_cons_of_mem _ hx)) (loadStep cwd md acc e), hstep]
  exact main ([], emptyRegistry)

/-- Every entry the loader writes holds one of the input documents, so
the file map is well-formed when the inputs are. -/
theorem loadFiles_fmOk (cwd md : Str) (files : List (Str × Json))
    (h : ∀ e ∈ files, wfJson e.2 = true) :
    fmOk (loadFiles cwd md files).1 = true := by
  rw [loadFiles]
  have main : ∀ (acc : FileMap × ComponentRegistry),
      fmOk acc.1 = true → fmOk (files.foldl (loadStep cwd md) acc).1 = true := by
    induction files with
    | nil => intro acc hacc; exact hacc
    | cons e rest ih =>
        intro acc hacc
        rw [List.foldl_cons]
        refine ih (fun x hx => h x (List.mem_cons_of_mem _ hx)) _ ?_
        have he := h e (List.mem_cons_self _ _)
        rw [loadStep]
        rw [fmOk] at hacc ⊢
        dsimp only
        cases hext : (jsEndsWith (pathRelative cwd md e.1) (st ".yaml")
            || jsEndsWith (pathRelative cwd md e.1) (st ".yml")) with
        | false =>
            simp only [Bool.false_eq_true, if_false]
            exact all_alSet _ _ _ _ (all_alSet _ _ _ _ (all_alSet _ _ _ _
              (all_alSet _ _ _ _ hacc he) he) he) he
        | true =>
            simp only [if_true]
            exact all_alSet _ _ _ _ (all_alSet _ _ _ _ (all_alSet _ _ _ _
              (all_alSet _ _ _ _ (all_alSet _ _ _ _ (all_alSet _ _ _ _
                hacc he) he) he) he) he) he
  exact main ([], emptyRegistry) rfl

/-- Values found through `fGet` in good fields are good. -/
theorem goodFields_fGet (fields : JsonFields) :
    goodFields fields = true → ∀ k v, fGet fields k = some v →
    goodKV k v = true ∧ goodJson v = true := by
  induction fields using fields_spine_ind with
  | hnil => intro _ k v h; simp [fGet] at h
  | hcons k' v' tl ih =>
      intro hg k v h
      simp only [goodFields, Bool.and_eq_true] at hg
      obtain ⟨⟨hkv, hv⟩, htl⟩ := hg
      rw [fGet] at h
      by_cases hk : k' = k
      · rw [if_pos hk] at h
        injection h with h2
        subst h2; subst hk
        exact ⟨hkv, hv⟩
      · rw [if_neg hk] at h
        exact ih htl k v h

/-- Sub-values read by `getPropD` stay good. -/
theorem goodJson_getPropD (j : Json) (k : Str) (hj : goodJson j = true) :
    goodJson (getPropD j k) = true := by
  cases j <;> simp [getPropD, goodJson]
  case obj fields =>
      cases hg : fGet fields k with
      | none => simp [goodJson]
      | some v =>
          simp only [goodJson] at hj
          exact (goodFields_fGet fields hj k v hg).2

/-- Entries of a good object are good, with their key conditions. -/
theorem goodFields_mem (fields : JsonFields) :
    goodFields fields = true → ∀ k v, (k, v) ∈ fToList fields →
    goodKV k v = true ∧ goodJson v = true := by
  induction fields using fields_spine_ind with
  | hnil => intro _ k v h; simp [fToList] at h
  | hcons k' v' tl ih =>
      intro hg k v h
      simp only [goodFields, Bool.and_eq_true] at hg
      obtain ⟨⟨hkv, hv⟩, htl⟩ := hg
      rw [fToList] at h
      rcases List.mem_cons.mp h with h1 | h1
      · injection h1 with e1 e2
        subst e1; subst e2
        exact ⟨hkv, hv⟩
      · exact ih htl k v h1

/-- No digit character is a dollar sign. -/
theorem digitChar_ne_dollar (m : Nat) : Nat.digitChar m ≠ '$' := by
  by_cases h : m < 17
  · interval_cases m <;> decide
  · have he : Nat.digitChar m = '*' := by
      rw [Nat.digitChar]
      repeat rw [if_neg (by omega)]
    rw [he]
    decide

/-- Decimal rendering never produces a dollar sign. -/
theorem toDigitsCore_no_dollar (fuel : Nat) :
    ∀ n ds, (∀ c ∈ ds, c ≠ '$') →
      ∀ c ∈ Nat.toDigitsCore 10 fuel n ds, c ≠ '$' := by
  induction fuel with
  | zero => intro n ds hds c hc; exact hds c hc
  | succ f ih =>
      intro n ds hds c hc
      rw [Nat.toDigitsCore] at hc
      try dsimp only at hc
      have hd : ∀ x ∈ Nat.digitChar (n % 10) :: ds, x ≠ '$' := by
        intro x hx
        rcases List.mem_cons.mp hx with h | h
        · rw [h]; exact digitChar_ne_dollar _
        · exact hds x h
      by_cases hz : n / 10 = 0
      · rw [if_pos hz] at hc
        exact hd c hc
      · rw [if_neg hz] at hc
        exact ih _ _ hd c hc

/-- A decimal array index is never the key `$ref`. -/
theorem toDigits_ne_ref (m : Nat) : Nat.toDigits 10 m ≠ st "$ref" := by
  intro h
  have hm : '$' ∈ Nat.toDigits 10 m := by
    rw [h]
    exact List.mem_cons_self _ _
  exact toDigitsCore_no_dollar (m + 1) m []
    (fun c hc => absurd hc (List.not_mem_nil c)) '$' hm rfl

/-- Index entries of a good array are good, with digit-string keys. -/
theorem goodList_arrayEntries (items : JsonList) :
    goodList items = true → ∀ i k v, (k, v) ∈ arrayEntries items i →
      goodKV k v = true ∧ goodJson v = true := by
  induction items using list_spine_ind with
  | hnil => intro _ i k v h; simp [arrayEntries] at h
  | hcons hd tl ih =>
      intro hg i k v h
      simp only [goodList, Bool.and_eq_true] at hg
      rw [arrayEntries] at h
      rcases List.mem_cons.mp h with h1 | h1
      · injection h1 with e1 e2
        subst e1; subst e2
        refine ⟨?_, hg.1⟩
        cases v <;> simp [goodKV, toDigits_ne_ref i]
      · exact ih hg.2 (i + 1) k v h1

/-- Entry values of a good tree's property snapshot are good. -/
theorem goodJson_entriesOf (j : Json) (hj : goodJson j = true) :
    ∀ k v, (k, v) ∈ entriesOf j → goodKV k v = true ∧ goodJson v = true := by
  intro k v h
  cases j <;> simp [entriesOf] at h
  case arr items =>
    exact goodList_arrayEntries items (by simpa [goodJson] using hj) 0 k v h
  case obj fields => exact goodFields_mem fields (by simpa [goodJson] using hj) k v h

/-- A good property satisfies the pointer check. -/
theorem goodKV_fieldRefCheck (k : Str) (v : Json) (h : goodKV k v = true) :
    fieldRefCheck ptrIntOrNameless k v = true := by
  by_cases hk : k = st "$ref"
  · cases v <;> simp_all [goodKV, fieldRefCheck, hk]
  · simp [fieldRefCheck, hk]

/-- The conclusion-side invariant gives the amended C1 pointer
property. -/
theorem goodJson_refsAll : ∀ j, goodJson j = true →
    jsonRefsAll ptrIntOrNameless j = true := by
  have h := json_mutual_ind
    (fun j => goodJson j = true → jsonRefsAll ptrIntOrNameless j = true)
    (fun l => goodList l = true → listRefsAll ptrIntOrNameless l = true)
    (fun f => goodFields f = true → fieldsRefsAll ptrIntOrNameless f = true)
    (by intro _; rfl) (by intro b _; rfl) (by intro n _; rfl)
    (by intro s _; rfl)
    (by intro items ih hg
        simpa [jsonRefsAll] using ih (by simpa [goodJson] using hg))
    (by intro fields ih hg
        simpa [jsonRefsAll] using ih (by simpa [goodJson] using hg))
    (by intro _; rfl)
    (by intro hd tl ih1 ih2 hg
        simp only [goodList, Bool.and_eq_true] at hg
        simp only [listRefsAll, Bool.and_eq_true]
        exact ⟨ih1 hg.1, ih2 hg.2⟩)
    (by intro _; rfl)
    (by intro k v tl ih1 ih2 hg
        simp only [goodFields, Bool.and_eq_true] at hg
        simp only [fieldsRefsAll, Bool.and_eq_true]
        exact ⟨⟨goodKV_fieldRefCheck k v hg.1.1, ih1 hg.1.2⟩, ih2 hg.2⟩)
  exact h.1

/-- `refsInternalOrNameless` is the pointwise `ptrIntOrNameless` check. -/
theorem refsInternalOrNameless_eq (j : Json) :
    refsInternalOrNameless j = jsonRefsAll ptrIntOrNameless j := rfl

/-- Writing a good property into good fields keeps them good. -/
theorem goodFields_fSet (fields : JsonFields) (k : Str) (v : Json) :
    goodFields fields = true → goodKV k v = true → goodJson v = true →
    goodFields (fSet fields k v) = true := by
  induction fields using fields_spine_ind with
  | hnil =>
      intro _ hkv hv
      simp [fSet, goodFields, hkv, hv]
  | hcons k' v' tl ih =>
      intro hg hkv hv
      simp only [goodFields, Bool.and_eq_true] at hg
      obtain ⟨⟨hkv', hv'⟩, htl⟩ := hg
      rw [fSet]
      by_cases hk : k' = k
      · rw [if_pos hk]
        simp only [goodFields, Bool.and_eq_true]
        exact ⟨⟨hk ▸ hkv, hv⟩, htl⟩
      · rw [if_neg hk]
        simp only [goodFields, Bool.and_eq_true]
        exact ⟨⟨hkv', hv'⟩, ih htl hkv hv⟩

/-- Deleting preserves goodness. -/
theorem goodFields_fDelete (fields : JsonFields) (k : Str) :
    goodFields fields = true → goodFields (fDelete fields k) = true := by
  induction fields using fields_spine_ind with
  | hnil => intro h; exact h
  | hcons k' v' tl ih =>
      intro hg
      simp only [goodFields, Bool.and_eq_true] at hg
      obtain ⟨⟨hkv', hv'⟩, htl⟩ := hg
      rw [fDelete]
      by_cases hk : k' = k
      · rw [if_pos hk]; exact htl
      · rw [if_neg hk]
        simp only [goodFields, Bool.and_eq_true]
        exact ⟨⟨hkv', hv'⟩, ih htl⟩

/-- `setProp` preserves goodness for a good property. -/
theorem goodJson_setProp (j : Json) (k : Str) (v : Json)
    (hj : goodJson j = true) (hkv : goodKV k v = true)
    (hv : goodJson v = true) : goodJson (setProp j k v) = true := by
  cases j <;> simp only [setProp] <;> try exact hj
  case obj fields =>
      simp only [goodJson] at hj ⊢
      exact goodFields_fSet fields k v hj hkv hv

/-- `deleteProp` preserves goodness. -/
theorem goodJson_deleteProp (j : Json) (k : Str)
    (hj : goodJson j = true) : goodJson (deleteProp j k) = true := by
  cases j <;> simp only [deleteProp] <;> try exact hj
  case obj fields =>
      simp only [goodJson] at hj ⊢
      exact goodFields_fDelete fields k hj

/-- `modifyProp` preserves goodness when the modifier does. -/
theorem goodJson_modifyProp (j : Json) (k : Str) (g : Json → Json)
    (hj : goodJson j = true)
    (hg : ∀ v, goodJson v = true →
      goodKV k (g v) = true ∧ goodJson (g v) = true) :
    goodJson (modifyProp j k g) = true := by
  cases j <;> simp only [modifyProp] <;> try exact hj
  case obj fields =>
      cases hget : fGet fields k with
      | none => exact hj
      | some v =>
          simp only [goodJson] at hj ⊢
          have hv := (goodFields_fGet fields hj k v hget).2
          exact goodFields_fSet fields k (g v) hj (hg v hv).1 (hg v hv).2

/-- `updateReferences` preserves goodness when the new pointer
conforms. -/
theorem updateRefs_good (oldRef newRef : Str) (hne : newRef ≠ [])
    (hnew : ptrIntOrNameless newRef = true) :
    ∀ j, goodJson j = true → goodJson (updateRefs j oldRef newRef) = true := by
  have h := json_mutual_ind
    (fun j => goodJson j = true → goodJson (updateRefs j oldRef newRef) = true)
    (fun l => goodList l = true →
      goodList (updateRefsList l oldRef newRef) = true)
    (fun f => goodFields f = true →
      goodFields (updateRefsFields f oldRef newRef) = true)
    (by intro h; simpa [updateRefs] using h)
    (by intro b h; simpa [updateRefs] using h)
    (by intro n h; simpa [updateRefs] using h)
    (by intro s h; simpa [updateRefs] using h)
    (by intro items ih hg
        simp only [updateRefs, goodJson] at hg ⊢
        exact ih hg)
    (by intro fields ih hg
        simp only [updateRefs, goodJson] at hg ⊢
        exact ih hg)
    (by intro _; rfl)
    (by intro hd tl ih1 ih2 hg
        simp only [goodList, Bool.and_eq_true] at hg
        simp only [updateRefsList, goodList, Bool.and_eq_true]
        exact ⟨ih1 hg.1, ih2 hg.2⟩)
    (by intro _; rfl)
    (by intro k v tl ih1 ih2 hg
        simp only [goodFields, Bool.and_eq_true] at hg
        obtain ⟨⟨hkv, hv⟩, htl⟩ := hg
        simp only [updateRefsFields, goodFields, Bool.and_eq_true]
        refine ⟨⟨?_, ?_⟩, ih2 htl⟩
        · by_cases hc : k = st "$ref" ∧ v = Json.str oldRef
          · rw [if_pos hc, goodKV, if_pos hc.1]
            simp [hne, hnew]
          · rw [if_neg hc]
            cases hob : v.isObjectLike with
            | true =>
                simp only [if_true]
                by_cases hk : k = st "$ref"
                · cases v <;> simp_all [goodKV, Json.isObjectLike, hk]
                · simp [goodKV, hk]
            | false => simp only [Bool.false_eq_true, if_false]; exact hkv
        · by_cases hc : k = st "$ref" ∧ v = Json.str oldRef
          · rw [if_pos hc]; rfl
          · rw [if_neg hc]
            cases hob : v.isObjectLike with
            | true => simp only [if_true]; exact ih1 hv
            | false => simp only [Bool.false_eq_true, if_false]; exact hv)
  exact h.1

/-- Sanitized names hold no invalid character. -/
theorem sanitizeName_valid (s : Str) :
    hasInvalidChar (sanitizeName s) = false := by
  induction s with
  | nil => decide
  | cons c rest ih =>
      simp only [sanitizeName, hasInvalidChar, List.map_cons,
        List.any_cons] at ih ⊢
      rw [ih]
      by_cases hc : validNameChar c = true
      · simp [hc]
      · simp only [Bool.not_eq_true] at hc
        simp only [hc, if_false, Bool.false_eq_true]
        decide

/-- A sanitized name is never the key `$ref`. -/
theorem sanitizeName_ne_ref (s : Str) : sanitizeName s ≠ st "$ref" := by
  intro h
  have h1 := sanitizeName_valid s
  rw [h] at h1
  exact absurd h1 (by decide)

/-- Any value is a good property under a key other than `$ref`. -/
theorem goodKV_of_ne (k : Str) (v : Json) (h : ¬ k = st "$ref") :
    goodKV k v = true := by
  cases v <;> simp [goodKV, h]

/-- A good object-valued property has a key other than `$ref`. -/
theorem goodKV_obj_ne_ref (k : Str) (pf : JsonFields)
    (h : goodKV k (Json.obj pf) = true) : k ≠ st "$ref" := by
  intro hcontra
  rw [hcontra] at h
  simp [goodKV] at h

/-- `normEnsure` preserves goodness. -/
theorem normEnsure_good (j : Json) (hj : goodJson j = true) :
    goodJson (normEnsure j) = true := by
  rw [normEnsure]
  have h1 : ∀ x, goodJson x = true →
      goodJson (if ¬ (getPropD x (st "components")).truthy = true then
        setProp x (st "components") (jobj []) else x) = true := by
    intro x hx
    by_cases hc : (getPropD x (st "components")).truthy = true
    · simp only [hc, not_true_eq_false, if_false]; exact hx
    · simp only [hc, not_false_eq_true, if_true]
      exact goodJson_setProp x _ _ hx (by decide) (by decide)
  have h2 := h1 j hj
  by_cases hc2 : (getPropD
      (getPropD (if ¬ (getPropD j (st "components")).truthy = true then
        setProp j (st "components") (jobj []) else j) (st "components"))
      (st "schemas")).truthy = true
  · simp only [hc2, not_true_eq_false, if_false]
    exact h2
  · simp only [hc2, not_false_eq_true, if_true]
    rw [setProp2]
    refine goodJson_modifyProp _ _ _ h2 ?_
    intro v hv
    refine ⟨goodKV_of_ne _ _ (by decide), ?_⟩
    exact goodJson_setProp v _ _ hv (goodKV_of_ne _ _ (by decide)) (by decide)

/-- One paths-loop step preserves goodness of tree and registry schemas
and leaves the other eight collections untouched. -/
theorem normPathsStep_inv (acc : Json × ComponentRegistry) (e : Str × Json)
    (hkv : goodKV e.1 e.2 = true)
    (hj : goodJson acc.1 = true)
    (hreg : acc.2.schemas.all (fun x => goodJson x.2) = true) :
    goodJson (normPathsStep acc e).1 = true
    ∧ (normPathsStep acc e).2.schemas.all (fun x => goodJson x.2) = true
    ∧ (normPathsStep acc e).2.responses = acc.2.responses
    ∧ (normPathsStep acc e).2.parameters = acc.2.parameters
    ∧ (normPathsStep acc e).2.examples = acc.2.examples
    ∧ (normPathsStep acc e).2.requestBodies = acc.2.requestBodies
    ∧ (normPathsStep acc e).2.headers = acc.2.headers
    ∧ (normPathsStep acc e).2.securitySchemes = acc.2.securitySchemes
    ∧ (normPathsStep acc e).2.links = acc.2.links
    ∧ (normPathsStep acc e).2.callbacks = acc.2.callbacks := by
  obtain ⟨k, v⟩ := e
  obtain ⟨aj, areg⟩ := acc
  simp only at hkv hj hreg
  cases v <;> simp only [normPathsStep] <;>
    try (refine ⟨hj, hreg, ?_, ?_, ?_, ?_, ?_, ?_, ?_, ?_⟩ <;> trivial)
  case obj pf =>
    cases hhas : fHas pf (st "$ref") with
    | false =>
        rw [if_neg (by decide)]
        (refine ⟨hj, hreg, ?_, ?_, ?_, ?_, ?_, ?_, ?_, ?_⟩ <;> trivial)
    | true =>
        rw [if_pos rfl]
        cases hget : fGet pf (st "$ref") with
        | none => (refine ⟨hj, hreg, ?_, ?_, ?_, ?_, ?_, ?_, ?_, ?_⟩ <;> trivial)
        | some rv =>
            cases rv <;>
              try (refine ⟨hj, hreg, ?_, ?_, ?_, ?_, ?_, ?_, ?_, ?_⟩ <;> trivial)
            case str refValue =>
              try dsimp only
              cases hsw : jsStartsWith refValue (st "#/components/schemas/") with
              | false =>
                  rw [if_neg (by decide)]
                  (refine ⟨hj, hreg, ?_, ?_, ?_, ?_, ?_, ?_, ?_, ?_⟩ <;> trivial)
              | true =>
                  rw [if_pos rfl]
                  try dsimp only
                  cases halc : alGet areg.schemas
                      (jsSubstringFrom refValue
                        (st "#/components/schemas/").length) with
                  | none =>
                      (refine ⟨hj, hreg, ?_, ?_, ?_, ?_, ?_, ?_, ?_, ?_⟩ <;> trivial)
                  | some schemaObj =>
                      have hso : goodJson schemaObj = true := by
                        have hmem := alGet_mem _ _ _ halc
                        rw [List.all_eq_true] at hreg
                        exact hreg _ hmem
                      have hkne : k ≠ st "$ref" := goodKV_obj_ne_ref k pf hkv
                      refine ⟨?_, all_alDelete _ _ _ hreg, by trivial,
                        by trivial, by trivial, by trivial, by trivial,
                        by trivial, by trivial, by trivial⟩
                      try dsimp only
                      rw [setProp2]
                      refine goodJson_modifyProp _ _ _ hj ?_
                      intro w hw
                      refine ⟨goodKV_of_ne _ _ (by decide), ?_⟩
                      exact goodJson_setProp w _ _ hw (goodKV_of_ne _ _ hkne) hso

/-- The paths-loop fold preserves goodness of tree and registry schemas
and leaves the other eight collections untouched. -/
theorem normPathsFold_inv (es : List (Str × Json)) :
    ∀ (acc : Json × ComponentRegistry),
      (∀ e ∈ es, goodKV e.1 e.2 = true) →
      goodJson acc.1 = true →
      acc.2.schemas.all (fun x => goodJson x.2) = true →
      goodJson (es.foldl normPathsStep acc).1 = true
      ∧ (es.foldl normPathsStep acc).2.schemas.all
          (fun x => goodJson x.2) = true
      ∧ (es.foldl normPathsStep acc).2.responses = acc.2.responses
      ∧ (es.foldl normPathsStep acc).2.parameters = acc.2.parameters
      ∧ (es.foldl normPathsStep acc).2.examples = acc.2.examples
      ∧ (es.foldl normPathsStep acc).2.requestBodies = acc.2.requestBodies
      ∧ (es.foldl normPathsStep acc).2.headers = acc.2.headers
      ∧ (es.foldl normPathsStep acc).2.securitySchemes
          = acc.2.securitySchemes
      ∧ (es.foldl normPathsStep acc).2.links = acc.2.links
      ∧ (es.foldl normPathsStep acc).2.callbacks = acc.2.callbacks := by
  induction es with
  | nil =>
      intro acc _ hj hreg
      refine ⟨hj, hreg, ?_, ?_, ?_, ?_, ?_, ?_, ?_, ?_⟩ <;> trivial
  | cons e rest ih =>
      intro acc hes hj hreg
      rw [List.foldl_cons]
      obtain ⟨g1, g2, g3, g4, g5, g6, g7, g8, g9, g10⟩ :=
        normPathsStep_inv acc e (hes e (List.mem_cons_self _ _)) hj hreg
      obtain ⟨f1, f2, f3, f4, f5, f6, f7, f8, f9, f10⟩ :=
        ih (normPathsStep acc e)
          (fun x hx => hes x (List.mem_cons_of_mem _ hx)) g1 g2
      exact ⟨f1, f2, f3.trans g3, f4.trans g4, f5.trans g5, f6.trans g6,
        f7.trans g7, f8.trans g8, f9.trans g9, f10.trans g10⟩

/-- The paths loop of the normalizer preserves goodness of the tree and
of the schema registry, and leaves the other eight collections
untouched. -/
theorem normPathsLoop_good (j : Json) (reg : ComponentRegistry)
    (hj : goodJson j = true)
    (hreg : reg.schemas.all (fun x => goodJson x.2) = true) :
    goodJson (normPathsLoop j reg).1 = true
    ∧ (normPathsLoop j reg).2.schemas.all (fun x => goodJson x.2) = true
    ∧ (normPathsLoop j reg).2.responses = reg.responses
    ∧ (normPathsLoop j reg).2.parameters = reg.parameters
    ∧ (normPathsLoop j reg).2.examples = reg.examples
    ∧ (normPathsLoop j reg).2.requestBodies = reg.requestBodies
    ∧ (normPathsLoop j reg).2.headers = reg.headers
    ∧ (normPathsLoop j reg).2.securitySchemes = reg.securitySchemes
    ∧ (normPathsLoop j reg).2.links = reg.links
    ∧ (normPathsLoop j reg).2.callbacks = reg.callbacks := by
  rw [normPathsLoop]
  by_cases hp : (getPropD j (st "paths")).truthy = true
  · simp only [hp, if_true]
    refine normPathsFold_inv _ (j, reg) ?_ hj hreg
    intro e he
    exact (goodJson_entriesOf _ (goodJson_getPropD j _ hj) e.1 e.2 he).1
  · simp only [hp, Bool.false_eq_true, if_false]
    refine ⟨hj, hreg, ?_, ?_, ?_, ?_, ?_, ?_, ?_, ?_⟩ <;> trivial

/-- A synthesized internal pointer satisfies the pointer condition. -/
theorem ptrIntOrNameless_internal (nm : Str) :
    ptrIntOrNameless (st "#/components/schemas/" ++ nm) = true := by
  rw [ptrIntOrNameless, internal_ptr_starts, Bool.true_or]

/-- Writing one good entry under `components.schemas` preserves
goodness. -/
theorem normRenameAdd_good (res : Json) (e : Str × Json)
    (hres : goodJson res = true) (hk : goodKV e.1 e.2 = true)
    (hv : goodJson e.2 = true) : goodJson (normRenameAdd res e) = true := by
  rw [normRenameAdd, setProp3]
  refine goodJson_modifyProp _ _ _ hres ?_
  intro v hvv
  refine ⟨goodKV_of_ne _ _ (by decide), ?_⟩
  refine goodJson_modifyProp _ _ _ hvv ?_
  intro w hw
  refine ⟨goodKV_of_ne _ _ (by decide), ?_⟩
  exact goodJson_setProp w _ _ hw hk hv

/-- The write-back fold after the name-fixing loop preserves
goodness. -/
theorem normRenameAddFold_good (l : List (Str × Json)) :
    ∀ res, l.all (fun x => goodKV x.1 x.2 && goodJson x.2) = true →
      goodJson res = true → goodJson (l.foldl normRenameAdd res) = true := by
  induction l with
  | nil => intro res _ h; exact h
  | cons e rest ih =>
      intro res hl hres
      simp only [List.all_cons, Bool.and_eq_true] at hl
      rw [List.foldl_cons]
      exact ih _ hl.2 (normRenameAdd_good res e hres hl.1.1 hl.1.2)

/-- One name-fixing step preserves goodness of the tree and of the
renamed-entry list. -/
theorem normRenameStep_inv (acc : Json × List (Str × Json)) (e : Str × Json)
    (hv : goodJson e.2 = true)
    (hj : goodJson acc.1 = true)
    (hl : acc.2.all (fun x => goodKV x.1 x.2 && goodJson x.2) = true) :
    goodJson (normRenameStep acc e).1 = true
    ∧ (normRenameStep acc e).2.all
        (fun x => goodKV x.1 x.2 && goodJson x.2) = true := by
  obtain ⟨k, v⟩ := e
  obtain ⟨aj, al⟩ := acc
  simp only at hv hj hl
  rw [normRenameStep]
  by_cases hic : hasInvalidChar k = true
  · rw [if_pos hic]
    try dsimp only
    constructor
    · exact updateRefs_good _ _ (internal_ptr_ne _)
        (ptrIntOrNameless_internal _) aj hj
    · refine all_alSet _ _ _ _ hl ?_
      simp only [Bool.and_eq_true]
      exact ⟨goodKV_of_ne _ _ (sanitizeName_ne_ref k), hv⟩
  · rw [if_neg hic]
    refine ⟨?_, hl⟩
    have hkne : ¬ k = st "$ref" := by
      intro h
      rw [h] at hic
      exact hic (by decide)
    try dsimp only
    rw [setProp3]
    refine goodJson_modifyProp _ _ _ hj ?_
    intro w hw
    refine ⟨goodKV_of_ne _ _ (by decide), ?_⟩
    refine goodJson_modifyProp _ _ _ hw ?_
    intro u hu
    refine ⟨goodKV_of_ne _ _ (by decide), ?_⟩
    exact goodJson_setProp u _ _ hu (goodKV_of_ne _ _ hkne) hv

/-- The name-fixing fold preserves goodness of the tree and of the
renamed-entry list. -/
theorem normRenameFold_inv (l : List (Str × Json)) :
    ∀ acc, l.all (fun x => goodJson x.2) = true →
      goodJson acc.1 = true →
      acc.2.all (fun x => goodKV x.1 x.2 && goodJson x.2) = true →
      goodJson (l.foldl normRenameStep acc).1 = true
      ∧ (l.foldl normRenameStep acc).2.all
          (fun x => goodKV x.1 x.2 && goodJson x.2) = true := by
  induction l with
  | nil => intro acc _ hj hl; exact ⟨hj, hl⟩
  | cons e rest ih =>
      intro acc hall hj hl
      simp only [List.all_cons, Bool.and_eq_true] at hall
      rw [List.foldl_cons]
      obtain ⟨g1, g2⟩ := normRenameStep_inv acc e hall.1 hj hl
      exact ih _ hall.2 g1 g2

/-- The whole name-fixing pass preserves goodness. -/
theorem normRename_good (j : Json) (reg : ComponentRegistry)
    (hj : goodJson j = true)
    (hreg : reg.schemas.all (fun x => goodJson x.2) = true) :
    goodJson (normRename j reg) = true := by
  rw [normRename]
  try dsimp only
  have h := normRenameFold_inv reg.schemas (j, []) hreg hj (by rfl)
  exact normRenameAddFold_good _ _ h.2 h.1

/-- With the eight non-schema collections empty, the other-types pass is
the identity. -/
theorem normOtherTypes_empty (j : Json) (reg : ComponentRegistry)
    (h1 : reg.responses = []) (h2 : reg.parameters = [])
    (h3 : reg.examples = []) (h4 : reg.requestBodies = [])
    (h5 : reg.headers = []) (h6 : reg.securitySchemes = [])
    (h7 : reg.links = []) (h8 : reg.callbacks = []) :
    normOtherTypes j reg = j := by
  rw [normOtherTypes, registryEntries, h1, h2, h3, h4, h5, h6, h7, h8]
  simp

/-- Deleting a non-`$ref`-keyed nested entry preserves goodness. -/
theorem deleteProp3_good (res : Json) (k1 k2 k3 : Str)
    (h1 : ¬ k1 = st "$ref") (h2 : ¬ k2 = st "$ref")
    (hres : goodJson res = true) :
    goodJson (deleteProp3 res k1 k2 k3) = true := by
  rw [deleteProp3]
  refine goodJson_modifyProp _ _ _ hres ?_
  intro w hw
  refine ⟨goodKV_of_ne _ _ h1, ?_⟩
  refine goodJson_modifyProp _ _ _ hw ?_
  intro u hu
  refine ⟨goodKV_of_ne _ _ h2, ?_⟩
  exact goodJson_deleteProp u _ hu

/-- One reclassification path-scan step preserves goodness. -/
theorem normReclassScanStep_good (target : Str) (repl : Json)
    (hrepl : goodJson repl = true) (acc : Json × Bool) (pe : Str × Json)
    (hkv : goodKV pe.1 pe.2 = true)
    (hacc : goodJson acc.1 = true) :
    goodJson (normReclassScanStep target repl acc pe).1 = true := by
  obtain ⟨k, v⟩ := pe
  obtain ⟨aj, fl⟩ := acc
  simp only at hkv hacc
  cases v <;> simp only [normReclassScanStep] <;> try exact hacc
  case obj pf =>
    by_cases hc : fHas pf (st "$ref") = true
        ∧ fGet pf (st "$ref") = some (Json.str target)
    · rw [if_pos hc]
      have hkne : k ≠ st "$ref" := goodKV_obj_ne_ref k pf hkv
      try dsimp only
      rw [setProp2]
      refine goodJson_modifyProp _ _ _ hacc ?_
      intro w hw
      refine ⟨goodKV_of_ne _ _ (by decide), ?_⟩
      exact goodJson_setProp w _ _ hw (goodKV_of_ne _ _ hkne) hrepl
    · rw [if_neg hc]
      exact hacc

/-- The reclassification path scan preserves goodness. -/
theorem normReclassScanFold_good (target : Str) (repl : Json)
    (hrepl : goodJson repl = true) (l : List (Str × Json)) :
    ∀ acc : Json × Bool,
      (∀ pe ∈ l, goodKV pe.1 pe.2 = true) →
      goodJson acc.1 = true →
      goodJson (l.foldl (normReclassScanStep target repl) acc).1 = true := by
  induction l with
  | nil => intro acc _ h; exact h
  | cons pe rest ih =>
      intro acc hall hacc
      rw [List.foldl_cons]
      exact ih _ (fun x hx => hall x (List.mem_cons_of_mem _ hx))
        (normReclassScanStep_good target repl hrepl acc pe
          (hall pe (List.mem_cons_self _ _)) hacc)

/-- One outer reclassification step preserves goodness. -/
theorem normReclassStep_good (res : Json) (e : Str × Json)
    (hres : goodJson res = true) (he : goodJson e.2 = true) :
    goodJson (normReclassStep res e) = true := by
  rw [normReclassStep]
  by_cases hc : e.2.isObjectLike = true ∧ hasOperations e.2 = true
  swap
  · rw [if_neg hc]; exact hres
  rw [if_pos hc]
  try dsimp only
  by_cases hp : (getPropD res (st "paths")).truthy = true
  · rw [if_pos hp]
    have hscan : goodJson ((entriesOf (getPropD res (st "paths"))).foldl
        (normReclassScanStep (st "#/components/schemas/" ++ e.1) e.2)
        (res, false)).1 = true := by
      refine normReclassScanFold_good _ _ he _ _ ?_ hres
      intro pe hpe
      exact (goodJson_entriesOf _ (goodJson_getPropD res _ hres)
        pe.1 pe.2 hpe).1
    by_cases hflag : ((entriesOf (getPropD res (st "paths"))).foldl
        (normReclassScanStep (st "#/components/schemas/" ++ e.1) e.2)
        (res, false)).2 = true
    · rw [if_pos hflag]
      exact deleteProp3_good _ _ _ _ (by decide) (by decide) hscan
    · rw [if_neg hflag]
      exact hscan
  · rw [if_neg hp]
    by_cases hflag : ((res, false) : Json × Bool).2 = true
    · exact (Bool.false_ne_true hflag).elim
    · rw [if_neg hflag]
      exact hres

/-- The outer reclassification fold preserves goodness. -/
theorem normReclassFold_good (l : List (Str × Json)) :
    ∀ res, (∀ e ∈ l, goodJson e.2 = true) → goodJson res = true →
      goodJson (l.foldl normReclassStep res) = true := by
  induction l with
  | nil => intro res _ h; exact h
  | cons e rest ih =>
      intro res hall hres
      rw [List.foldl_cons]
      exact ih _ (fun x hx => hall x (List.mem_cons_of_mem _ hx))
        (normReclassStep_good res e hres (hall e (List.mem_cons_self _ _)))

/-- The reclassification pass preserves goodness. -/
theorem normReclass_good (j : Json) (hj : goodJson j = true) :
    goodJson (normReclass j) = true := by
  rw [normReclass]
  refine normReclassFold_good _ j ?_ hj
  intro e he
  exact (goodJson_entriesOf _
    (goodJson_getPropD _ _ (goodJson_getPropD _ _ hj)) e.1 e.2 he).2

/-- `normalizeSchema` preserves goodness when the registry's schema
collection is good and its other collections are empty. -/
theorem normalizeSchema_good (schema : Json) (reg : ComponentRegistry)
    (hj : goodJson schema = true)
    (hreg : reg.schemas.all (fun x => goodJson x.2) = true)
    (h1 : reg.responses = []) (h2 : reg.parameters = [])
    (h3 : reg.examples = []) (h4 : reg.requestBodies = [])
    (h5 : reg.headers = []) (h6 : reg.securitySchemes = [])
    (h7 : reg.links = []) (h8 : reg.callbacks = []) :
    goodJson (normalizeSchema schema reg) = true := by
  rw [normalizeSchema]
  try dsimp only
  obtain ⟨g1, g2, g3, g4, g5, g6, g7, g8, g9, g10⟩ :=
    normPathsLoop_good (normEnsure schema) reg (normEnsure_good _ hj) hreg
  have hj3 := normRename_good _ _ g1 g2
  rw [normOtherTypes_empty _ _ (g3.trans h1) (g4.trans h2) (g5.trans h3)
    (g6.trans h4) (g7.trans h5) (g8.trans h6) (g9.trans h7) (g10.trans h8)]
  exact normReclass_good _ hj3

/-- C1 amended: for every input set on which the merge succeeds, in
which no file path contains `/components/` (so nothing is pre-registered
raw) and in which every `$ref` property holds a non-empty string, every
reference node of the merged output carries a pointer that starts with
`#` unless that pointer was unresolved and no component name was
derivable from it, in which case the original external pointer is kept
verbatim. -/
theorem c1_refs_internal_or_nameless (fuel : Nat) (cwd : Str)
    (files : List (Str × Json)) (out : Json) (warns : List Warning)
    (hpaths : ∀ e ∈ files, jsIncludes e.1 (st "/components/") = false)
    (hwf : ∀ e ∈ files, wfJson e.2 = true)
    (hrun : mergeCoreF fuel cwd files = some (out, warns)) :
    refsInternalOrNameless out = true := by
  cases files with
  | nil => exact Option.noConfusion hrun
  | cons f rest =>
      obtain ⟨mainFilePath, mainContent⟩ := f
      rw [mergeCoreF] at hrun
      by_cases hmp : mainFilePath = []
      · rw [if_pos hmp] at hrun; exact Option.noConfusion hrun
      rw [if_neg hmp] at hrun
      dsimp only at hrun
      cases hmain : alGet
          (loadFiles cwd (pathDirname mainFilePath)
            ((mainFilePath, mainContent) :: rest)).1 mainFilePath with
      | none => rw [hmain] at hrun; exact Option.noConfusion hrun
      | some mainFileRef =>
          rw [hmain] at hrun
          dsimp only at hrun
          cases hres : resolveAllReferences fuel cwd mainFileRef.content
              (loadFiles cwd (pathDirname mainFilePath)
                ((mainFilePath, mainContent) :: rest)).1
              (pathDirname mainFilePath)
              (loadFiles cwd (pathDirname mainFilePath)
                ((mainFilePath, mainContent) :: rest)).2 with
          | none => rw [hres] at hrun; exact Option.noConfusion hrun
          | some pr =>
              obtain ⟨resolvedSchema, s1⟩ := pr
              rw [hres] at hrun
              dsimp only at hrun
              rw [resolveAllReferences] at hres
              cases hproc : procNode fuel cwd mainFileRef.content
                  (loadFiles cwd (pathDirname mainFilePath)
                    ((mainFilePath, mainContent) :: rest)).1
                  (pathDirname mainFilePath)
                  ⟨(loadFiles cwd (pathDirname mainFilePath)
                      ((mainFilePath, mainContent) :: rest)).2, [], []⟩
                  [] 0 with
              | none => rw [hproc] at hres; exact Option.noConfusion hres
              | some tr =>
                  obtain ⟨j0, s0, vis0⟩ := tr
                  rw [hproc] at hres
                  dsimp only at hres
                  injection hres with hres2
                  have hj0 : j0 = resolvedSchema := congrArg Prod.fst hres2
                  have hs0e : s0 = s1 := congrArg Prod.snd hres2
                  subst hj0; subst hs0e
                  have hfm : fmOk (loadFiles cwd (pathDirname mainFilePath)
                      ((mainFilePath, mainContent) :: rest)).1 = true :=
                    loadFiles_fmOk _ _ _ hwf
                  have hwfmain : wfJson mainFileRef.content = true := by
                    rw [fmOk, List.all_eq_true] at hfm
                    exact hfm _ (alGet_mem _ _ _ hmain)
                  have hregE : (loadFiles cwd (pathDirname mainFilePath)
                      ((mainFilePath, mainContent) :: rest)).2 =
                      emptyRegistry :=
                    loadFiles_registry _ _ _ hpaths
                  have hinit : rstateOkC1
                      ⟨(loadFiles cwd (pathDirname mainFilePath)
                          ((mainFilePath, mainContent) :: rest)).2, [], []⟩
                      = true := by
                    rw [hregE]; decide
                  obtain ⟨hgood, hs1⟩ :=
                    (resolution_good fuel).1 cwd mainFileRef.content _ _ _ _ _
                      _ _ _ hproc hwfmain hfm hinit
                  rw [rstateOkC1_iff] at hs1
                  obtain ⟨q1, _, q3, q4, q5, q6, q7, q8, q9, q10⟩ := hs1
                  have hout : goodJson
                      (normalizeSchema j0 s0.registry) = true :=
                    normalizeSchema_good _ _ hgood q1 q3 q4 q5 q6 q7 q8 q9 q10
                  injection hrun with hrun2
                  have ho : out = normalizeSchema j0 s0.registry :=
                    (congrArg Prod.fst hrun2).symm
                  rw [ho, refsInternalOrNameless_eq]
                  exact goodJson_refsAll _ hout

/-- The amended C1 theorem at a concrete input: the deduplication pair
merges successfully, its paths avoid `/components/`, its documents are
well-formed, and indeed every pointer of the output is internal. -/
theorem c1_refs_internal_or_nameless_witness :
    refsInternalOrNameless dedupOut = true :=
  c1_refs_internal_or_nameless 30 (st "/cwd") dedupFiles dedupOut []
    (by decide) (by decide) (by decide)

/-- `chainPath` in head-normal form. -/
theorem chainPath_cons (i : Nat) :
    chainPath i = '/' :: ('p' :: ('/' :: chainBody i)) := rfl

/-- `chainBody` in head-normal form. -/
theorem chainBody_cons (i : Nat) :
    chainBody i = 'c' :: (List.replicate i 'c' ++ st ".yaml") := rfl

/-- The chain file names hold no separator. -/
theorem chainBody_no_slash (i : Nat) : ∀ ch ∈ chainBody i, ch ≠ '/' := by
  intro ch hch
  rw [chainBody] at hch
  rcases List.mem_append.mp hch with h | h
  · rw [List.eq_of_mem_replicate h]; decide
  · simp only [st, List.mem_cons, List.not_mem_nil, or_false] at h
    rcases h with h | h | h | h | h <;> subst h <;> decide

/-- Splitting a separator-free string is the one-chunk list. -/
theorem jsSplitChar_no_sep (s : Str) (c : Char) (h : ∀ x ∈ s, x ≠ c) :
    jsSplitChar s c = [s] := by
  induction s with
  | nil => rfl
  | cons a rest ih =>
      rw [jsSplitChar, ih (fun x hx => h x (List.mem_cons_of_mem _ hx))]
      rw [if_neg (by exact h a (List.mem_cons_self _ _))]

/-- Splitting after a leading separator prepends an empty chunk. -/
theorem jsSplitChar_sep (rest : Str) (c : Char) :
    jsSplitChar (c :: rest) c = [] :: jsSplitChar rest c := by
  rw [jsSplitChar, if_pos rfl]

/-- Splitting after a non-separator extends the first chunk. -/
theorem jsSplitChar_nonsep (a : Char) (rest : Str) (c : Char) (hd : Str)
    (tl : List Str) (h : ¬ a = c) (hs : jsSplitChar rest c = hd :: tl) :
    jsSplitChar (a :: rest) c = (a :: hd) :: tl := by
  rw [jsSplitChar, hs, if_neg h]

/-- The chain paths split into root, directory and file name. -/
theorem jsSplitChar_chainPath (i : Nat) :
    jsSplitChar (chainPath i) '/' = [[], st "p", chainBody i] := by
  have h1 := jsSplitChar_no_sep (chainBody i) '/' (chainBody_no_slash i)
  have h2 := jsSplitChar_sep (chainBody i) '/'
  rw [h1] at h2
  have h3 := jsSplitChar_nonsep 'p' ('/' :: chainBody i) '/' [] [chainBody i]
    (by decide) h2
  have h4 := jsSplitChar_sep ('p' :: ('/' :: chainBody i)) '/'
  rw [h3] at h4
  rw [chainPath_cons]
  exact h4

/-- The chain bodies are non-empty and differ from `.` and `..`. -/
theorem chainBody_plain (i : Nat) :
    ¬ (chainBody i = [] ∨ chainBody i = st ".") ∧ ¬ chainBody i = st ".." := by
  rw [chainBody_cons]
  refine ⟨?_, ?_⟩
  · intro h
    rcases h with h | h
    · exact List.noConfusion h
    · injection h with h1 _
      exact absurd h1 (by decide)
  · intro h
    injection h with h1 _
    exact absurd h1 (by decide)

/-- The chain paths are already normalized. -/
theorem normalizeAbs_chainPath (i : Nat) :
    normalizeAbs (chainPath i) = chainPath i := by
  rw [normalizeAbs, jsSplitChar_chainPath]
  rw [normSegs]
  simp only [List.foldl_cons, List.foldl_nil]
  rw [if_pos (Or.inl trivial)]
  rw [if_neg (chainBody_plain i).1, if_neg (chainBody_plain i).2]
  rw [if_neg (show ¬ (st "p" = [] ∨ st "p" = st ".") by decide)]
  rw [if_neg (show ¬ st "p" = st ".." by decide)]
  rw [joinSegs]
  simp only [List.intersperse, List.flatten]
  rw [chainPath_cons]
  simp [st]

/-- The chain paths resolve to themselves. -/
theorem pathResolve1_chainPath (cwd : Str) (i : Nat) :
    pathResolve1 cwd (chainPath i) = chainPath i := by
  rw [pathResolve1, if_pos (by rw [chainPath_cons]; rfl)]
  exact normalizeAbs_chainPath i

/-- Chain path lengths grow with the index. -/
theorem chainPath_len (i : Nat) : (chainPath i).length = i + 9 := by
  rw [chainPath, chainBody]
  simp [st]

/-- The chain paths are pairwise distinct. -/
theorem chainPath_inj (i j : Nat) (h : chainPath i = chainPath j) : i = j := by
  have := congrArg List.length h
  rw [chainPath_len, chainPath_len] at this
  omega

/-- A separator-free string is no chain path. -/
theorem no_slash_ne_chainPath (x : Str) (i : Nat)
    (hx : ∀ ch ∈ x, ch ≠ '/') : x ≠ chainPath i := by
  intro h
  have hm : '/' ∈ x := by
    rw [h, chainPath_cons]
    exact List.mem_cons_self _ _
  exact hx '/' hm rfl

/-- A `./`-prefixed string is no chain path. -/
theorem dotSlash_ne_chainPath (x : Str) (i : Nat) :
    st "./" ++ x ≠ chainPath i := by
  intro h
  rw [chainPath_cons] at h
  injection h with h1 _
  exact absurd h1 (by decide)

/-- The chain paths relative to the main directory are their bare file
names. -/
theorem pathRelative_chainPath (j : Nat) :
    pathRelative (st "/cwd") (st "/p") (chainPath j) = chainBody j := by
  rw [pathRelative]
  have hf : pathResolve1 (st "/cwd") (st "/p") = st "/p" := by decide
  rw [hf, pathResolve1_chainPath]
  rw [if_neg (fun h => by
    have := congrArg List.length h
    rw [chainPath_len] at this
    simp [st] at this)]
  have hsegs : segsOf (chainPath j) = [st "p", chainBody j] := by
    rw [segsOf, jsSplitChar_chainPath]
    rw [List.filter_cons, List.filter_cons, List.filter_cons,
      List.filter_nil]
    rw [if_neg (by decide), if_pos (by decide),
      if_pos (by
        simpa using fun h : chainBody j = [] =>
          (chainBody_plain j).1 (Or.inl h))]
  rw [hsegs]
  have hsegs2 : segsOf (st "/p") = [st "p"] := by decide
  rw [hsegs2]
  have hc : commonLen [st "p"] [st "p", chainBody j] = 1 := rfl
  dsimp only
  rw [hc]
  simp [joinSegs, List.intersperse]

/-- Characters of a `jsSubstring` come from the string. -/
theorem jsSubstring_mem (s : Str) (a b : Int) (ch : Char)
    (h : ch ∈ jsSubstring s a b) : ch ∈ s := by
  rw [jsSubstring] at h
  exact List.mem_of_mem_take (List.mem_of_mem_drop h)

/-- Reading an overwritten key. -/
theorem alGet_alSet_self {α : Type} (l : List (Str × α)) (k : Str) (v : α) :
    alGet (alSet l k v) k = some v := by
  rw [alGet_alSet, if_pos rfl]

/-- Reading another key through a write. -/
theorem alGet_alSet_ne {α : Type} (l : List (Str × α)) (k2 k : Str) (v2 : α)
    (h : k2 ≠ k) : alGet (alSet l k2 v2) k = alGet l k := by
  rw [alGet_alSet, if_neg h]

/-- A loader step whose six keys all differ from `key` does not affect
the lookup of `key`. -/
theorem loadStep_fm_other (cwd md : Str) (acc : FileMap × ComponentRegistry)
    (e : Str × Json) (key : Str)
    (h1 : pathResolve1 cwd e.1 ≠ key) (h2 : e.1 ≠ key)
    (h3 : st "./" ++ pathRelative cwd md e.1 ≠ key)
    (h4 : pathRelative cwd md e.1 ≠ key)
    (h5 : jsSubstring (pathRelative cwd md e.1) 0
        (jsLastIndexOfChar (pathRelative cwd md e.1) '.') ≠ key)
    (h6 : st "./" ++ jsSubstring (pathRelative cwd md e.1) 0
        (jsLastIndexOfChar (pathRelative cwd md e.1) '.') ≠ key) :
    alGet (loadStep cwd md acc e).1 key = alGet acc.1 key := by
  rw [loadStep]
  dsimp only
  split
  · rw [alGet_alSet_ne _ _ _ _ h6, alGet_alSet_ne _ _ _ _ h5,
      alGet_alSet_ne _ _ _ _ h4, alGet_alSet_ne _ _ _ _ h3,
      alGet_alSet_ne _ _ _ _ h2, alGet_alSet_ne _ _ _ _ h1]
  · rw [alGet_alSet_ne _ _ _ _ h4, alGet_alSet_ne _ _ _ _ h3,
      alGet_alSet_ne _ _ _ _ h2, alGet_alSet_ne _ _ _ _ h1]

/-- After a loader step, the document is retrievable under its exact
path when the relative-path keys differ from it. -/
theorem loadStep_fm_self (cwd md : Str) (acc : FileMap × ComponentRegistry)
    (e : Str × Json)
    (h3 : st "./" ++ pathRelative cwd md e.1 ≠ e.1)
    (h4 : pathRelative cwd md e.1 ≠ e.1)
    (h5 : jsSubstring (pathRelative cwd md e.1) 0
        (jsLastIndexOfChar (pathRelative cwd md e.1) '.') ≠ e.1)
    (h6 : st "./" ++ jsSubstring (pathRelative cwd md e.1) 0
        (jsLastIndexOfChar (pathRelative cwd md e.1) '.') ≠ e.1) :
    alGet (loadStep cwd md acc e).1 e.1 =
      some ⟨pathResolve1 cwd e.1, pathRelative cwd md e.1, e.2⟩ := by
  rw [loadStep]
  dsimp only
  split
  · rw [alGet_alSet_ne _ _ _ _ h6, alGet_alSet_ne _ _ _ _ h5,
      alGet_alSet_ne _ _ _ _ h4, alGet_alSet_ne _ _ _ _ h3,
      alGet_alSet_self]
  · rw [alGet_alSet_ne _ _ _ _ h4, alGet_alSet_ne _ _ _ _ h3,
      alGet_alSet_self]

/-- Loader steps of other chain documents do not affect the lookup of
chain path `i`. -/
theorem chainFold_preserve (l : List Nat) (n i : Nat) :
    ∀ acc, (∀ j ∈ l, j ≠ i) →
    alGet ((l.map (fun j => (chainPath j, chainDoc n j))).foldl
        (loadStep (st "/cwd") (st "/p")) acc).1 (chainPath i) =
      alGet acc.1 (chainPath i) := by
  induction l with
  | nil => intro acc _; rfl
  | cons j rest ih =>
      intro acc hl
      rw [List.map_cons, List.foldl_cons]
      rw [ih _ (fun x hx => hl x (List.mem_cons_of_mem _ hx))]
      have hji := hl j (List.mem_cons_self _ _)
      refine loadStep_fm_other _ _ _ _ _ ?_ ?_ ?_ ?_ ?_ ?_
      · rw [pathResolve1_chainPath]
        exact fun h => hji (chainPath_inj _ _ h)
      · exact fun h => hji (chainPath_inj _ _ h)
      · exact dotSlash_ne_chainPath _ _
      · rw [pathRelative_chainPath]
        exact no_slash_ne_chainPath _ _ (chainBody_no_slash j)
      · rw [pathRelative_chainPath]
        exact no_slash_ne_chainPath _ _
          (fun ch hch => chainBody_no_slash j ch (jsSubstring_mem _ _ _ ch hch))
      · exact dotSlash_ne_chainPath _ _

/-- After loading the chain documents, chain path `i` retrieves the
`i`-th document. -/
theorem chainFold_get (l : List Nat) (n : Nat) :
    ∀ acc i, i ∈ l →
    alGet ((l.map (fun j => (chainPath j, chainDoc n j))).foldl
        (loadStep (st "/cwd") (st "/p")) acc).1 (chainPath i) =
      some ⟨chainPath i, chainBody i, chainDoc n i⟩ := by
  induction l with
  | nil => intro acc i h; exact absurd h (List.not_mem_nil i)
  | cons j rest ih =>
      intro acc i hmem
      rw [List.map_cons, List.foldl_cons]
      by_cases hir : i ∈ rest
      · exact ih _ i hir
      · have hj : j = i := by
          rcases List.mem_cons.mp hmem with h | h
          · exact h.symm
          · exact absurd h hir
        subst hj
        rw [chainFold_preserve rest n j _
          (fun x hx hxe => hir (hxe ▸ hx))]
        have hself := loadStep_fm_self (st "/cwd") (st "/p") acc
          (chainPath j, chainDoc n j)
          (dotSlash_ne_chainPath _ _)
          (by rw [pathRelative_chainPath]
              exact no_slash_ne_chainPath _ _ (chainBody_no_slash j))
          (by rw [pathRelative_chainPath]
              exact no_slash_ne_chainPath _ _
                (fun ch hch =>
                  chainBody_no_slash j ch (jsSubstring_mem _ _ _ ch hch)))
          (dotSlash_ne_chainPath _ _)
        rw [hself, pathResolve1_chainPath, pathRelative_chainPath]

/-- The loaded chain file map retrieves every chain document under its
path. -/
theorem loadFiles_chain_get (n i : Nat) (hi : i ≤ n) :
    alGet (loadFiles (st "/cwd") (st "/p") (chainFiles n)).1 (chainPath i) =
      some ⟨chainPath i, chainBody i, chainDoc n i⟩ := by
  rw [loadFiles, chainFiles]
  exact chainFold_get (List.range (n + 1)) n _ i
    (List.mem_range.mpr (by omega))

/-- A chain path is not an internal pointer. -/
theorem chainPath_not_hash (i : Nat) :
    jsStartsWith (chainPath i) (st "#") = false := rfl

/-- A visited set of low chain paths does not contain the next one. -/
theorem chain_not_visited (vis : List Str) (i : Nat)
    (h : ∀ k, chainPath k ∈ vis → k ≤ i) :
    vis.contains (chainPath (i + 1)) = false := by
  induction vis with
  | nil => rfl
  | cons hd tl ih =>
      rw [List.contains_cons]
      have h1 : (chainPath (i + 1) == hd) = false := by
        by_cases hhd : chainPath (i + 1) = hd
        · have := h (i + 1) (by rw [hhd]; exact List.mem_cons_self _ _)
          omega
        · exact beq_eq_false_iff_ne.mpr hhd
      rw [h1, Bool.false_or]
      exact ih (fun k hk => h k (List.mem_cons_of_mem _ hk))

/-- Resolving the pointer to chain document `i + 1` succeeds and emits
no warning, given that one further walk of the target document does. -/
theorem chain_resolveRef (n i : Nat) (hin : i + 1 ≤ n) (f4 : Nat)
    (bp : Str) (s : RState) (vis : List Str) (d : Nat)
    (hvis : ∀ k, chainPath k ∈ vis → k ≤ i)
    (hrec : ∀ bp' s1 vis1 d',
        (∀ k, chainPath k ∈ vis1 → k ≤ i + 1) →
        ∃ out s2 vis2,
          procNode f4 (st "/cwd") (chainDoc n (i + 1)) (chainFM n) bp' s1
            vis1 d' = some (out, s2, vis2)
          ∧ s2.warnings = s1.warnings) :
    ∃ out s' vis',
      resolveRef (f4 + 1) (st "/cwd") (chainPath (i + 1)) (chainFM n) bp s
        vis d = some (out, s', vis')
      ∧ s'.warnings = s.warnings := by
  cases hmemo : memoOf s (chainPath (i + 1)) with
  | some ir =>
      rw [resolveRef_memo f4 _ _ _ _ _ _ _ ir (chainPath_not_hash _) hmemo]
      exact ⟨refNode ir, s, vis, rfl, rfl⟩
  | none =>
      have hlook : lookupRef (st "/cwd") (chainFM n) bp (chainPath (i + 1)) =
          some ⟨chainPath (i + 1), chainBody (i + 1), chainDoc n (i + 1)⟩ := by
        rw [lookupRef, chainFM, loadFiles_chain_get n (i + 1) hin]
      rw [resolveRef_hit f4 _ _ _ _ _ _ _ _ (chainPath_not_hash _) hmemo
        (chain_not_visited vis i hvis) hlook]
      dsimp only
      have hvis2 : ∀ k, chainPath k ∈ vis ++ [chainPath (i + 1)] → k ≤ i + 1 := by
        intro k hk
        rcases List.mem_append.mp hk with h | h
        · exact le_trans (hvis k h) (by omega)
        · rw [List.mem_singleton] at h
          have := chainPath_inj _ _ h
          omega
      obtain ⟨out1, s3, vis3, hrun1, hw1⟩ :=
        hrec (pathDirname (chainPath (i + 1))) s (vis ++ [chainPath (i + 1)])
          (d + 1) hvis2
      rw [hrun1]
      cases hec : extractComponentName (chainPath (i + 1)) with
      | some nm =>
          dsimp only
          by_cases hnm : nm = []
          · rw [if_neg (by simpa using hnm)]
            exact ⟨out1, s3, _, rfl, hw1⟩
          · rw [if_pos hnm]
            exact ⟨refNode (st "#/components/schemas/" ++ nm), _, _, rfl, hw1⟩
      | none =>
          exact ⟨out1, s3, _, rfl, hw1⟩

/-- One walk of chain document `i` (fuel linear in the remaining chain
length) succeeds and emits no warning. -/
theorem chain_resolve (n : Nat) :
    ∀ m i, i + m = n → ∀ fuel, 4 * m + 3 ≤ fuel →
    ∀ bp s vis d, (∀ k, chainPath k ∈ vis → k ≤ i) →
    ∃ out s' vis',
      procNode fuel (st "/cwd") (chainDoc n i) (chainFM n) bp s vis d =
        some (out, s', vis')
      ∧ s'.warnings = s.warnings := by
  intro m
  induction m with
  | zero =>
      intro i hi fuel hfuel bp s vis d hvis
      have hii : i = n := by omega
      subst hii
      rw [chainDoc, if_neg (lt_irrefl i)]
      obtain ⟨f1, rfl⟩ : ∃ f1, fuel = f1 + 1 := ⟨fuel - 1, by omega⟩
      rw [show (jobj [(st "type", Json.str (st "string"))]) =
        Json.obj (.cons (st "type") (.str (st "string")) .nil) from rfl]
      rw [procNode_obj]
      rw [show refOf (.cons (st "type") (.str (st "string")) .nil) = none
        from rfl]
      obtain ⟨f2, rfl⟩ : ∃ f2, f1 = f2 + 1 := ⟨f1 - 1, by omega⟩
      rw [procFields_cons]
      obtain ⟨f3, rfl⟩ : ∃ f3, f2 = f3 + 1 := ⟨f2 - 1, by omega⟩
      rw [procNode_scalar f3 _ _ _ _ _ _ _ (by simp [Json.isObjectLike])]
      dsimp only
      rw [procFields_nil]
      exact ⟨_, s, vis, rfl, rfl⟩
  | succ m ihm =>
      intro i hi fuel hfuel bp s vis d hvis
      have hlt : i < n := by omega
      rw [chainDoc, if_pos hlt]
      rw [show (jobj [(st "a", jobj [(st "$ref", Json.str (chainPath (i + 1)))])]) =
        Json.obj (.cons (st "a")
          (Json.obj (.cons (st "$ref") (.str (chainPath (i + 1))) .nil)) .nil)
        from rfl]
      obtain ⟨f1, rfl⟩ : ∃ f1, fuel = f1 + 1 := ⟨fuel - 1, by omega⟩
      rw [procNode_obj]
      rw [show refOf (.cons (st "a")
          (Json.obj (.cons (st "$ref") (.str (chainPath (i + 1))) .nil)) .nil)
        = none from rfl]
      obtain ⟨f2, rfl⟩ : ∃ f2, f1 = f2 + 1 := ⟨f1 - 1, by omega⟩
      rw [procFields_cons]
      obtain ⟨f3, rfl⟩ : ∃ f3, f2 = f3 + 1 := ⟨f2 - 1, by omega⟩
      rw [procNode_obj]
      rw [show refOf (.cons (st "$ref") (.str (chainPath (i + 1))) .nil) =
        some (chainPath (i + 1)) from rfl]
      obtain ⟨f4, rfl⟩ : ∃ f4, f3 = f4 + 1 := ⟨f3 - 1, by omega⟩
      obtain ⟨out1, s1, vis1, hrr, hw1⟩ :=
        chain_resolveRef n i (by omega) f4 bp s vis (d + 1) hvis
          (fun bp' sx visx d' hvisx =>
            ihm (i + 1) (by omega) f4 (by omega) bp' sx visx d' hvisx)
      dsimp only
      rw [hrr]
      dsimp only
      rw [procFields_nil]
      exact ⟨_, s1, vis1, rfl, hw1⟩

/-- Every chain input merges successfully with no diagnostic. -/
theorem chain_merges_cleanly (n : Nat) : mergesCleanly (chainFiles n) := by
  have hsplit : chainFiles n = (chainPath 0, chainDoc n 0) ::
      (((List.range n).map Nat.succ).map
        (fun i => (chainPath i, chainDoc n i))) := by
    rw [chainFiles, List.range_succ_eq_map, List.map_cons, List.map_map]
  obtain ⟨out, s1, vis1, hrun, hw⟩ :=
    chain_resolve n n 0 (by omega) (4 * n + 3) (by omega) (st "/p")
      ⟨(loadFiles (st "/cwd") (st "/p") (chainFiles n)).2, [], []⟩ [] 0
      (fun k hk => absurd hk (List.not_mem_nil _))
  refine ⟨4 * n + 3, normalizeSchema out s1.registry, ?_⟩
  rw [hsplit, mergeCoreF]
  rw [if_neg (show ¬ chainPath 0 = [] by decide)]
  dsimp only
  rw [← hsplit]
  rw [show pathDirname (chainPath 0) = st "/p" by decide]
  rw [loadFiles_chain_get n 0 (by omega)]
  dsimp only
  rw [resolveAllReferences]
  rw [show (loadFiles (st "/cwd") (st "/p") (chainFiles n)).1 = chainFM n
    from rfl]
  rw [hrun]
  dsimp only at hw ⊢
  rw [hw]

/-- C5 counterexample: no bound `D` exists past which deeper chains fail
with a diagnostic - the chain family refutes every candidate bound,
since each chain resolves cleanly. -/
theorem c5_no_depth_limit : ¬ specDepthLimited := by
  intro h
  obtain ⟨D, hD⟩ := h
  exact hD (D + 1) (by omega) (chain_merges_cleanly (D + 1))

/-- C5 amended: the implementation imposes no maximum resolution depth
and performs no worklist conversion - the `depth` argument is only
logged - so for every `n` the chain input of nested-reference depth `n`
(each document referencing the next, as the first conjunct exhibits)
terminates successfully with no diagnostic. -/
theorem c5_no_explicit_depth_bound :
    ∀ n : Nat,
      (∀ i, i < n → chainDoc n i =
        jobj [(st "a", jobj [(st "$ref", Json.str (chainPath (i + 1)))])])
      ∧ mergesCleanly (chainFiles n) := by
  intro n
  exact ⟨fun i hi => by rw [chainDoc, if_pos hi], chain_merges_cleanly n⟩

/-- The amended C5 theorem at a concrete input: the two-hop chain is a
genuine reference chain and merges cleanly. -/
theorem c5_no_explicit_depth_bound_witness :
    chainDoc 2 0 = jobj [(st "a", jobj [(st "$ref", Json.str (chainPath 1))])]
    ∧ mergesCleanly (chainFiles 2) :=
  ⟨(c5_no_explicit_depth_bound 2).1 0 (by decide),
   (c5_no_explicit_depth_bound 2).2⟩
